import Mathlib

/-
Verification of the growable-array container in `advanced-vector/vector.h`.

The embedding is slot-level: a raw buffer is a list of slots, each either
uninitialized (`none`) or holding a live element (`some v`); the list length
is the buffer's capacity.  Element operations of the parameter type `T`
(copy/move construction, copy/move assignment, value construction) may throw;
their behaviour is given by a `Traits` record.  Every operation returns
`Option (Except e r)`: `none` models undefined behaviour of the translated
code (destroying a dead slot, constructing over a live slot, reading an
uninitialized or out-of-range slot), `some (.error s)` models a C++ exception
propagating with post-rollback state `s`, and `some (.ok s)` a normal return.
-/

set_option maxRecDepth 8000
set_option linter.unusedVariables false

deriving instance DecidableEq for Except

namespace AdvVector

/-- A raw memory buffer (`RawMemory<T>`): a fixed-capacity region of slots,
each either uninitialized (`none`) or holding a live element (`some v`).
The list length is `capacity_`. -/
abbrev RawMemory (α : Type) : Type := List (Option α)

/-- Behaviour of the element type `T`: which element operations succeed on
which values, the compile-time traits the code branches on
(`std::is_nothrow_move_constructible_v`, `std::is_copy_constructible_v`),
and the (unspecified but valid) value a moved-from element holds. -/
structure Traits (α : Type) where
  nothrowMove : Bool
  copyConstructible : Bool
  copyOk : α → Bool
  moveCtorOk : α → Bool
  copyAsgOk : α → Bool
  moveAsgOk : α → Bool
  moved : α → α
  defaultOk : Bool
  defaultVal : α

/-- A type whose element operations never throw. -/
def Traits.Tame {α : Type} (tr : Traits α) : Prop :=
  (∀ a, tr.copyOk a = true) ∧ (∀ a, tr.moveCtorOk a = true) ∧
    (∀ a, tr.copyAsgOk a = true) ∧ (∀ a, tr.moveAsgOk a = true) ∧
    tr.defaultOk = true

/-- If the compile-time trait says moves are nothrow, move construction
never fails. -/
def Traits.Coherent {α : Type} (tr : Traits α) : Prop :=
  tr.nothrowMove = true → ∀ a, tr.moveCtorOk a = true

variable {α : Type}

/-- Read the live element at slot `i`; `none` when the slot is uninitialized
or out of range (reading such a slot is undefined behaviour at call sites). -/
def readAt (b : RawMemory α) (i : Nat) : Option α :=
  (b[i]?).bind id

/-- Placement-construct a value in the uninitialized slot `i`; undefined
behaviour (`none`) if the slot is out of range or already holds an element. -/
def constructAt (b : RawMemory α) (i : Nat) (v : α) : Option (RawMemory α) :=
  match b[i]? with
  | some none => some (b.set i (some v))
  | _ => none

/-- Run the destructor of the element in slot `i`; undefined behaviour
(`none`) if the slot is out of range or holds no live element. -/
def destroyAt (b : RawMemory α) (i : Nat) : Option (RawMemory α) :=
  match b[i]? with
  | some (some _) => some (b.set i none)
  | _ => none

/-- Assign a value to the live element in slot `i`; undefined behaviour
(`none`) if the slot is out of range or holds no live element. -/
def assignAt (b : RawMemory α) (i : Nat) (v : α) : Option (RawMemory α) :=
  match b[i]? with
  | some (some _) => some (b.set i (some v))
  | _ => none

/-- `std::destroy_n`: destroy the `n` elements in slots `[s, s + n)`. -/
def destroyN (b : RawMemory α) (s : Nat) : Nat → Option (RawMemory α)
  | 0 => some b
  | n + 1 => (destroyAt b s).bind fun b' => destroyN b' (s + 1) n

/-- `std::uninitialized_copy_n`: copy-construct `n` elements from `src`
slots `[s, s + n)` into `dst` slots `[d, d + n)`.  On a copy-ctor throw the
algorithm destroys what it had constructed, so the caller's destination is
unchanged (`.error`); the source is never modified. -/
def uninitCopyN (tr : Traits α) (src : RawMemory α) :
    Nat → Nat → RawMemory α → Nat → Option (Except Unit (RawMemory α))
  | _, 0, dst, _ => some (.ok dst)
  | s, n + 1, dst, d =>
    match readAt src s with
    | none => none
    | some v =>
      if tr.copyOk v then
        match constructAt dst d v with
        | none => none
        | some dst' =>
          match uninitCopyN tr src (s + 1) n dst' (d + 1) with
          | none => none
          | some (.ok dst'') => some (.ok dst'')
          | some (.error _) => some (.error ())
      else some (.error ())

/-- `std::uninitialized_move_n`: move-construct `n` elements from `src`
slots `[s, s + n)` into `dst` slots `[d, d + n)`; each moved source slot is
left holding its moved-from value (still live).  On a move-ctor throw the
algorithm destroys what it had constructed (caller's destination unchanged)
and the error carries the source with its already-moved-from slots. -/
def uninitMoveN (tr : Traits α) :
    RawMemory α → Nat → Nat → RawMemory α → Nat →
    Option (Except (RawMemory α) (RawMemory α × RawMemory α))
  | src, _, 0, dst, _ => some (.ok (src, dst))
  | src, s, n + 1, dst, d =>
    match readAt src s with
    | none => none
    | some v =>
      if tr.moveCtorOk v then
        match constructAt dst d v with
        | none => none
        | some dst' =>
          match assignAt src s (tr.moved v) with
          | none => none
          | some src' =>
            match uninitMoveN tr src' (s + 1) n dst' (d + 1) with
            | none => none
            | some (.ok (src'', dst'')) => some (.ok (src'', dst''))
            | some (.error src'') => some (.error src'')
      else some (.error src)

/-- `RawMemory::CopyOrMoveData`: relocate `n` elements of `src` starting at
`s` into `dst` starting at `d`.  Move-constructs when
`std::is_nothrow_move_constructible_v<T> || !std::is_copy_constructible_v<T>`,
copy-constructs otherwise.  Both outcomes carry the resulting source and
destination buffers. -/
def RawMemory.CopyOrMoveData (tr : Traits α) (src : RawMemory α) (s n : Nat)
    (dst : RawMemory α) (d : Nat) :
    Option (Except (RawMemory α × RawMemory α) (RawMemory α × RawMemory α)) :=
  if tr.nothrowMove || !tr.copyConstructible then
    match uninitMoveN tr src s n dst d with
    | none => none
    | some (.ok (src', dst')) => some (.ok (src', dst'))
    | some (.error src') => some (.error (src', dst))
  else
    match uninitCopyN tr src s n dst d with
    | none => none
    | some (.ok dst') => some (.ok (src, dst'))
    | some (.error _) => some (.error (src, dst))

/-- `std::copy_n` by copy-assignment, as used in copy assignment of the
vector: assign `src` slots `[s, s + n)` onto the live elements in `dst`
slots `[d, d + n)`.  A mid-way throw leaves the already-assigned elements in
place (`.error` carries the partially overwritten destination). -/
def copyAssignN (tr : Traits α) (src : RawMemory α) :
    Nat → Nat → RawMemory α → Nat → Option (Except (RawMemory α) (RawMemory α))
  | _, 0, dst, _ => some (.ok dst)
  | s, n + 1, dst, d =>
    match readAt src s with
    | none => none
    | some v =>
      if tr.copyAsgOk v then
        match assignAt dst d v with
        | none => none
        | some dst' =>
          match copyAssignN tr src (s + 1) n dst' (d + 1) with
          | none => none
          | some (.ok dst'') => some (.ok dst'')
          | some (.error dst'') => some (.error dst'')
      else some (.error dst)

/-- `std::uninitialized_value_construct_n`: default-construct `n` elements in
slots `[s, s + n)`.  A default-ctor throw makes the algorithm destroy what it
constructed, so the caller's buffer is unchanged (`.error`); `defaultOk` is a
single flag, which is observationally adequate because the rollback erases
any partial progress. -/
def uninitValueConstructN (tr : Traits α) :
    RawMemory α → Nat → Nat → Option (Except Unit (RawMemory α))
  | b, _, 0 => some (.ok b)
  | b, s, n + 1 =>
    if tr.defaultOk then
      match constructAt b s tr.defaultVal with
      | none => none
      | some b' =>
        match uninitValueConstructN tr b' (s + 1) n with
        | none => none
        | some (.ok b'') => some (.ok b'')
        | some (.error _) => some (.error ())
    else some (.error ())

/-- `std::move_backward(first, last, end)` as used in
`EmplaceWithoutRealloc`: for `j` from `first + n - 1` down to `first`,
move-assign slot `j` into slot `j + 1` (the source slot is left holding its
moved-from value).  A throwing move-assignment propagates with the buffer as
mutated so far. -/
def shiftUpOne (tr : Traits α) :
    RawMemory α → Nat → Nat → Option (Except (RawMemory α) (RawMemory α))
  | b, _, 0 => some (.ok b)
  | b, first, n + 1 =>
    match readAt b (first + n) with
    | none => none
    | some v =>
      if tr.moveAsgOk v then
        match assignAt b (first + n + 1) v with
        | none => none
        | some b1 =>
          match assignAt b1 (first + n) (tr.moved v) with
          | none => none
          | some b2 =>
            match shiftUpOne tr b2 first n with
            | none => none
            | some (.ok b3) => some (.ok b3)
            | some (.error b3) => some (.error b3)
      else some (.error b)

/-- `std::move(it + 1, end(), it)` as used in `Erase`: for `k = 0 .. n - 1`,
move-assign slot `i + k + 1` into slot `i + k` (the source slot is left
holding its moved-from value).  A throwing move-assignment propagates with
the buffer as mutated so far. -/
def shiftDownOne (tr : Traits α) :
    RawMemory α → Nat → Nat → Option (Except (RawMemory α) (RawMemory α))
  | b, _, 0 => some (.ok b)
  | b, i, n + 1 =>
    match readAt b (i + 1) with
    | none => none
    | some v =>
      if tr.moveAsgOk v then
        match assignAt b i v with
        | none => none
        | some b1 =>
          match assignAt b1 (i + 1) (tr.moved v) with
          | none => none
          | some b2 =>
            match shiftDownOne tr b2 (i + 1) n with
            | none => none
            | some (.ok b3) => some (.ok b3)
            | some (.error b3) => some (.error b3)
      else some (.error b)

/-- `Vector<T>`: one owned raw buffer plus the count of live elements. -/
structure Vector (α : Type) where
  data_ : RawMemory α
  size_ : Nat
deriving DecidableEq

/-- `Vector::Capacity`. -/
def Vector.Capacity (v : Vector α) : Nat := v.data_.length

/-- `Vector::Size`. -/
def Vector.Size (v : Vector α) : Nat := v.size_

/-- The default-constructed vector: null buffer, zero capacity, zero size. -/
def Vector.empty : Vector α := ⟨[], 0⟩

/-- The sequence of live element values in slots `[0, size_)`, the abstract
contents of the vector. -/
def Vector.toList [Inhabited α] (v : Vector α) : List α :=
  (List.range v.size_).map fun i => (readAt v.data_ i).getD default

/-- The container invariant: `size_ ≤ capacity`, slots `[0, size_)` hold live
elements, and slots `[size_, capacity)` are uninitialized. -/
def Vector.WF (v : Vector α) : Prop :=
  v.size_ ≤ v.data_.length ∧
    ∀ i < v.data_.length, ((readAt v.data_ i).isSome ↔ i < v.size_)

instance (v : Vector α) : Decidable v.WF := by
  unfold Vector.WF; exact inferInstance

/-- The weakened invariant reached when a move-assignment throws in the
middle of a same-capacity insertion: slots `[0, size_)` live, slots
`[size_ + 1, capacity)` uninitialized, slot `size_` unconstrained. -/
def Vector.WFweak (v : Vector α) : Prop :=
  v.size_ ≤ v.data_.length ∧
    ∀ i < v.data_.length,
      (i < v.size_ → (readAt v.data_ i).isSome) ∧
        (v.size_ + 1 ≤ i → readAt v.data_ i = none)

instance [DecidableEq α] (v : Vector α) : Decidable v.WFweak := by
  unfold Vector.WFweak; exact inferInstance

/-- `Vector::Reserve`, with full accounting: besides the vector, each outcome
carries the final slot states of the buffer that goes out of scope (the local
`new_data` after the swap on success, or as left by the rollback when an
element constructor threw; the empty list when no buffer was allocated). -/
def Vector.ReserveFull (tr : Traits α) (v : Vector α) (newCapacity : Nat) :
    Option (Except (Vector α × RawMemory α) (Vector α × RawMemory α)) :=
  if newCapacity ≤ v.Capacity then some (.ok (v, []))
  else
    match RawMemory.CopyOrMoveData tr v.data_ 0 v.size_
        (List.replicate newCapacity none) 0 with
    | none => none
    | some (.error (src', nd')) => some (.error (⟨src', v.size_⟩, nd'))
    | some (.ok (src', nd')) =>
      match destroyN src' 0 v.size_ with
      | none => none
      | some old' => some (.ok (⟨nd', v.size_⟩, old'))

/-- `Vector::Reserve` as the caller sees it: the temporary buffer is
deallocated when it goes out of scope. -/
def Vector.Reserve (tr : Traits α) (v : Vector α) (newCapacity : Nat) :
    Option (Except (Vector α) (Vector α)) :=
  match v.ReserveFull tr newCapacity with
  | none => none
  | some (.error (v', _)) => some (.error v')
  | some (.ok (v', _)) => some (.ok v')

/-- `Vector::Resize`. -/
def Vector.Resize (tr : Traits α) (v : Vector α) (newSize : Nat) :
    Option (Except (Vector α) (Vector α)) :=
  if newSize ≤ v.size_ then
    match destroyN v.data_ newSize (v.size_ - newSize) with
    | none => none
    | some b' => some (.ok ⟨b', newSize⟩)
  else
    match v.Reserve tr newSize with
    | none => none
    | some (.error v') => some (.error v')
    | some (.ok v') =>
      match uninitValueConstructN tr v'.data_ v.size_ (newSize - v.size_) with
      | none => none
      | some (.error _) => some (.error v')
      | some (.ok b'') => some (.ok ⟨b'', newSize⟩)

/-- `Vector::PopBack`. -/
def Vector.PopBack (v : Vector α) : Option (Vector α) :=
  (destroyAt v.data_ (v.size_ - 1)).map fun b' => ⟨b', v.size_ - 1⟩

/-- `Vector::Erase(pos)` with `offset = pos - cbegin()`: shift the elements
after `offset` down one slot by move-assignment, destroy the last slot,
decrement the size, return the erase offset. -/
def Vector.Erase (tr : Traits α) (v : Vector α) (offset : Nat) :
    Option (Except (Vector α) (Vector α × Nat)) :=
  match shiftDownOne tr v.data_ offset (v.size_ - 1 - offset) with
  | none => none
  | some (.error b') => some (.error ⟨b', v.size_⟩)
  | some (.ok b') =>
    match destroyAt b' (v.size_ - 1) with
    | none => none
    | some b'' => some (.ok (⟨b'', v.size_ - 1⟩, offset))

/-- `Vector::EmplaceWithRealloc(pos, args...)` with `offset = pos - cbegin()`.
`mkArg` is the construction `T(std::forward<Args>(args)...)`, reading the
current buffer (the arguments may reference it).  Full accounting: each
outcome also carries the final slot states of the buffer that goes out of
scope (`new_data` on the throw paths, the old buffer after the swap on
success). -/
def Vector.EmplaceWithReallocAux (tr : Traits α) (v : Vector α) (offset : Nat)
    (mkArg : RawMemory α → Option α) (newCapacity : Nat) :
    Option (Except (Vector α × RawMemory α) (Vector α × RawMemory α × Nat)) :=
  match mkArg v.data_ with
  | none => some (.error (v, List.replicate newCapacity none))
  | some x =>
    match constructAt (List.replicate newCapacity none) offset x with
    | none => none
    | some nd1 =>
      match RawMemory.CopyOrMoveData tr v.data_ 0 offset nd1 0 with
      | none => none
      | some (.error (src', nd')) =>
        match destroyAt nd' offset with
        | none => none
        | some nd'' => some (.error (⟨src', v.size_⟩, nd''))
      | some (.ok (src1, nd2)) =>
        match RawMemory.CopyOrMoveData tr src1 offset (v.size_ - offset) nd2
            (offset + 1) with
        | none => none
        | some (.error (src2, nd')) =>
          match destroyN nd' 0 offset with
          | none => none
          | some nd'' => some (.error (⟨src2, v.size_⟩, nd''))
        | some (.ok (src2, nd3)) =>
          match destroyN src2 0 v.size_ with
          | none => none
          | some old' => some (.ok (⟨nd3, v.size_ + 1⟩, old', offset))

def Vector.EmplaceWithRealloc (tr : Traits α) (v : Vector α) (offset : Nat)
    (mkArg : RawMemory α → Option α) :
    Option (Except (Vector α × RawMemory α) (Vector α × RawMemory α × Nat)) :=
  v.EmplaceWithReallocAux tr offset mkArg (if 0 < v.size_ then v.size_ * 2 else 1)

/-- `Vector::EmplaceWithoutRealloc(pos, args...)` with
`offset = pos - cbegin()`.  At the end position the element is constructed
directly in the next free slot; otherwise the new value is built in a
temporary first, the last element is move-constructed into the next free
slot, the block `[offset, size_ - 1)` is shifted up by backward
move-assignment, and the temporary is move-assigned into the target slot. -/
def Vector.EmplaceWithoutRealloc (tr : Traits α) (v : Vector α) (offset : Nat)
    (mkArg : RawMemory α → Option α) :
    Option (Except (Vector α) (Vector α × Nat)) :=
  if offset = v.size_ then
    match mkArg v.data_ with
    | none => some (.error v)
    | some x =>
      match constructAt v.data_ v.size_ x with
      | none => none
      | some b' => some (.ok (⟨b', v.size_ + 1⟩, offset))
  else
    match mkArg v.data_ with
    | none => some (.error v)
    | some temp =>
      match readAt v.data_ (v.size_ - 1) with
      | none => none
      | some w =>
        if tr.moveCtorOk w then
          match constructAt v.data_ v.size_ w with
          | none => none
          | some b1 =>
            match assignAt b1 (v.size_ - 1) (tr.moved w) with
            | none => none
            | some b2 =>
              match shiftUpOne tr b2 offset (v.size_ - 1 - offset) with
              | none => none
              | some (.error b3) => some (.error ⟨b3, v.size_⟩)
              | some (.ok b3) =>
                if tr.moveAsgOk temp then
                  match assignAt b3 offset temp with
                  | none => none
                  | some b4 => some (.ok (⟨b4, v.size_ + 1⟩, offset))
                else some (.error ⟨b3, v.size_⟩)
        else some (.error v)

/-- `Vector::Emplace(pos, args...)`: dispatch on `size_ == Capacity()`; the
reallocating path's temporary buffer is deallocated when it goes out of
scope. -/
def Vector.Emplace (tr : Traits α) (v : Vector α) (offset : Nat)
    (mkArg : RawMemory α → Option α) :
    Option (Except (Vector α) (Vector α × Nat)) :=
  if v.size_ = v.Capacity then
    match v.EmplaceWithRealloc tr offset mkArg with
    | none => none
    | some (.error (v', _)) => some (.error v')
    | some (.ok (v', _, p)) => some (.ok (v', p))
  else v.EmplaceWithoutRealloc tr offset mkArg

/-- Constructing the new element from a const reference to a value fixed
before the call, as `Insert(pos, const T&)` / `PushBack(const T&)` do: one
copy-construction. -/
def mkCopyArg (tr : Traits α) (x : α) : RawMemory α → Option α :=
  fun _ => if tr.copyOk x then some x else none

/-- Constructing the new element from an rvalue, as `Insert(pos, T&&)` /
`PushBack(T&&)` do: one move-construction. -/
def mkMoveArg (tr : Traits α) (x : α) : RawMemory α → Option α :=
  fun _ => if tr.moveCtorOk x then some x else none

/-- Constructing the new element by copying the container's own element at
index `i` (`Insert(pos, v[i])`): the reference is dereferenced at
construction time, against the buffer as it then is. -/
def mkSelfArg (tr : Traits α) (i : Nat) : RawMemory α → Option α :=
  fun b =>
    match readAt b i with
    | none => none
    | some w => if tr.copyOk w then some w else none

/-- `Vector::Insert(pos, const T& value)`. -/
def Vector.Insert (tr : Traits α) (v : Vector α) (offset : Nat) (x : α) :
    Option (Except (Vector α) (Vector α × Nat)) :=
  v.Emplace tr offset (mkCopyArg tr x)

/-- `Vector::PushBack(const T& value)` = `EmplaceBack(value)` =
`Emplace(cend(), value)`. -/
def Vector.PushBack (tr : Traits α) (v : Vector α) (x : α) :
    Option (Except (Vector α) (Vector α × Nat)) :=
  v.Emplace tr v.size_ (mkCopyArg tr x)

/-- `Vector::operator=(const Vector&)`.  `sameObj` models the address check
`this != &rhs`. -/
def Vector.CopyAssign (tr : Traits α) (sameObj : Bool) (lhs rhs : Vector α) :
    Option (Except (Vector α) (Vector α)) :=
  if sameObj then some (.ok lhs)
  else if rhs.size_ > lhs.Capacity then
    match uninitCopyN tr rhs.data_ 0 rhs.size_ (List.replicate rhs.size_ none) 0 with
    | none => none
    | some (.error _) => some (.error lhs)
    | some (.ok nb') =>
      match destroyN lhs.data_ 0 lhs.size_ with
      | none => none
      | some _ => some (.ok ⟨nb', rhs.size_⟩)
  else
    match copyAssignN tr rhs.data_ 0 (min rhs.size_ lhs.size_) lhs.data_ 0 with
    | none => none
    | some (.error b') => some (.error ⟨b', lhs.size_⟩)
    | some (.ok b') =>
      if rhs.size_ < lhs.size_ then
        match destroyN b' rhs.size_ (lhs.size_ - rhs.size_) with
        | none => none
        | some b'' => some (.ok ⟨b'', rhs.size_⟩)
      else
        match uninitCopyN tr rhs.data_ lhs.size_ (rhs.size_ - lhs.size_) b' lhs.size_ with
        | none => none
        | some (.error _) => some (.error ⟨b', lhs.size_⟩)
        | some (.ok b'') => some (.ok ⟨b'', rhs.size_⟩)

/-- `Vector::Vector(Vector&&)`: the new vector takes the buffer and size;
the source is left with a null buffer and size zero.  No element operation
is invoked, so no `Traits` argument is needed and the function is total. -/
def Vector.MoveCtor (v : Vector α) : Vector α × Vector α :=
  (⟨v.data_, v.size_⟩, ⟨[], 0⟩)

/-- `Vector::operator=(Vector&&)`: the target takes the source's buffer and
size, the source is emptied.  (The target's previous buffer is overwritten
without destroying its elements — `RawMemory::operator=(RawMemory&&)` does
not deallocate the old buffer — so only the two resulting states are
modeled.) -/
def Vector.MoveAssign (lhs rhs : Vector α) : Vector α × Vector α :=
  (⟨rhs.data_, rhs.size_⟩, ⟨[], 0⟩)

/-- `Vector::Swap`. -/
def Vector.SwapOp (a b : Vector α) : Vector α × Vector α :=
  (⟨b.data_, b.size_⟩, ⟨a.data_, a.size_⟩)

/-- `Vector::Vector(const Vector&)`: fresh buffer of capacity `other.size_`,
copy-construct each element.  On a throw the partially built object is rolled
back and no vector is produced. -/
def Vector.CopyCtor (tr : Traits α) (src : Vector α) :
    Option (Except Unit (Vector α)) :=
  match uninitCopyN tr src.data_ 0 src.size_ (List.replicate src.size_ none) 0 with
  | none => none
  | some (.error _) => some (.error ())
  | some (.ok nb') => some (.ok ⟨nb', src.size_⟩)

/-- `Vector::Vector(size_t)`: fresh buffer of capacity `n`,
value-construct `n` elements.  On a throw no vector is produced. -/
def Vector.SizedCtor (tr : Traits α) (n : Nat) :
    Option (Except Unit (Vector α)) :=
  match uninitValueConstructN tr (List.replicate n (none : Option α)) 0 n with
  | none => none
  | some (.error _) => some (.error ())
  | some (.ok b') => some (.ok ⟨b', n⟩)

/-- Project the post-throw vector out of an `Emplace`/`Erase`-shaped result. -/
def errVec : Option (Except (Vector α) (Vector α × Nat)) → Option (Vector α)
  | some (.error v) => some v
  | _ => none

/-- Project the post-throw vector out of a `Reserve`/`Resize`-shaped result. -/
def errVecR : Option (Except (Vector α) (Vector α)) → Option (Vector α)
  | some (.error v) => some v
  | _ => none

/-- Project the post-throw vector and temporary-buffer state out of a
full-accounting result. -/
def errVecFull :
    Option (Except (Vector α × RawMemory α) (Vector α × RawMemory α × Nat)) →
      Option (Vector α × RawMemory α)
  | some (.error e) => some e
  | _ => none

/-! ### Slot-level lemmas -/

theorem readAt_eq_some_iff {b : RawMemory α} {i : Nat} {w : α} :
    readAt b i = some w ↔ b[i]? = some (some w) := by
  unfold readAt
  cases h : b[i]? with
  | none => simp
  | some o => cases o <;> simp

theorem readAt_isSome_iff {b : RawMemory α} {i : Nat} :
    (readAt b i).isSome = true ↔ ∃ w, b[i]? = some (some w) := by
  unfold readAt
  cases h : b[i]? with
  | none => simp
  | some o => cases o <;> simp

theorem readAt_eq_none_iff {b : RawMemory α} {i : Nat} :
    readAt b i = none ↔ (b[i]? = some none ∨ b[i]? = none) := by
  unfold readAt
  cases h : b[i]? with
  | none => simp
  | some o => cases o <;> simp

theorem lt_length_of_getElem?_eq_some {b : RawMemory α} {i : Nat} {o : Option α}
    (h : b[i]? = some o) : i < b.length := by
  by_contra hlt
  rw [List.getElem?_eq_none (by omega)] at h
  exact Option.noConfusion h

theorem getElem?_set_spec (b : RawMemory α) (i j : Nat) (x : Option α)
    (hi : i < b.length) :
    (b.set i x)[j]? = if i = j then some x else b[j]? := by
  rw [List.getElem?_set]
  by_cases h : i = j
  · subst h; simp [hi]
  · simp [h]

theorem constructAt_eq_some {b b' : RawMemory α} {i : Nat} {v : α} :
    constructAt b i v = some b' ↔ b[i]? = some none ∧ b' = b.set i (some v) := by
  unfold constructAt
  cases h : b[i]? with
  | none => simp
  | some o => cases o <;> simp [eq_comm]

theorem destroyAt_eq_some {b b' : RawMemory α} {i : Nat} :
    destroyAt b i = some b' ↔ (∃ w, b[i]? = some (some w)) ∧ b' = b.set i none := by
  unfold destroyAt
  cases h : b[i]? with
  | none => simp
  | some o => cases o <;> simp [eq_comm]

theorem assignAt_eq_some {b b' : RawMemory α} {i : Nat} {v : α} :
    assignAt b i v = some b' ↔
      (∃ w, b[i]? = some (some w)) ∧ b' = b.set i (some v) := by
  unfold assignAt
  cases h : b[i]? with
  | none => simp
  | some o => cases o <;> simp [eq_comm]

/-! ### Specifications of the memory algorithms -/

theorem destroyN_spec :
    ∀ (n : Nat) (b : RawMemory α) (s : Nat),
      (∀ k < n, ∃ w, b[s + k]? = some (some w)) →
      ∃ b', destroyN b s n = some b' ∧ b'.length = b.length ∧
        ∀ j, b'[j]? = if s ≤ j ∧ j < s + n then some none else b[j]? := by
  intro n
  induction n with
  | zero =>
    intro b s h
    exact ⟨b, rfl, rfl, fun j => by rw [if_neg (by omega)]⟩
  | succ n ih =>
    intro b s h
    obtain ⟨w, hw⟩ := h 0 (by omega)
    rw [Nat.add_zero] at hw
    have hslen : s < b.length := lt_length_of_getElem?_eq_some hw
    have hx : destroyAt b s = some (b.set s none) :=
      destroyAt_eq_some.mpr ⟨⟨w, hw⟩, rfl⟩
    obtain ⟨b', hb', hlen, hpt⟩ := ih (b.set s none) (s + 1) (by
      intro k hk
      obtain ⟨w', hw'⟩ := h (k + 1) (by omega)
      refine ⟨w', ?_⟩
      rw [getElem?_set_spec _ _ _ _ hslen, if_neg (by omega)]
      have : s + 1 + k = s + (k + 1) := by omega
      rw [this]; exact hw')
    refine ⟨b', ?_, ?_, ?_⟩
    · show (destroyAt b s).bind _ = some b'
      rw [hx, Option.some_bind]; exact hb'
    · rw [hlen, List.length_set]
    · intro j
      rw [hpt j]
      by_cases h1 : s + 1 ≤ j ∧ j < s + 1 + n
      · rw [if_pos h1, if_pos (by omega)]
      · rw [if_neg h1, getElem?_set_spec _ _ _ _ hslen]
        by_cases h2 : s = j
        · subst h2; rw [if_pos rfl, if_pos (by omega)]
        · rw [if_neg h2, if_neg (by omega)]

theorem uninitCopyN_spec (tr : Traits α) :
    ∀ (n : Nat) (src : RawMemory α) (s : Nat) (dst : RawMemory α) (d : Nat),
      (∀ k < n, ∃ w, src[s + k]? = some (some w)) →
      (∀ k < n, dst[d + k]? = some none) →
      ∃ r, uninitCopyN tr src s n dst d = some r ∧
        (∀ dst', r = .ok dst' → dst'.length = dst.length ∧
          ∀ j, dst'[j]? = if d ≤ j ∧ j < d + n then src[s + j - d]? else dst[j]?) ∧
        ((∀ k < n, ∀ w, src[s + k]? = some (some w) → tr.copyOk w = true) →
          ∀ u, r ≠ .error u) := by
  intro n
  induction n with
  | zero =>
    intro src s dst d hsrc hdst
    refine ⟨.ok dst, rfl, ?_, fun _ u h => by cases h⟩
    intro dst' heq
    injection heq with heq
    subst heq
    exact ⟨rfl, fun j => by rw [if_neg (by omega)]⟩
  | succ n ih =>
    intro src s dst d hsrc hdst
    obtain ⟨w, hw⟩ := hsrc 0 (by omega)
    rw [Nat.add_zero] at hw
    have hdlen : d < dst.length :=
      lt_length_of_getElem?_eq_some (by simpa using hdst 0 (by omega))
    have hread : readAt src s = some w := readAt_eq_some_iff.mpr hw
    by_cases hok : tr.copyOk w = true
    · have hcons : constructAt dst d w = some (dst.set d (some w)) :=
        constructAt_eq_some.mpr ⟨by simpa using hdst 0 (by omega), rfl⟩
      obtain ⟨r', hr', hokc, herrc⟩ := ih src (s + 1) (dst.set d (some w)) (d + 1)
        (by
          intro k hk
          obtain ⟨w', hw'⟩ := hsrc (k + 1) (by omega)
          refine ⟨w', ?_⟩
          have : s + 1 + k = s + (k + 1) := by omega
          rw [this]; exact hw')
        (by
          intro k hk
          rw [getElem?_set_spec _ _ _ _ hdlen, if_neg (by omega)]
          have : d + 1 + k = d + (k + 1) := by omega
          rw [this]; exact hdst (k + 1) (by omega))
      have hstep : uninitCopyN tr src s (n + 1) dst d =
          match uninitCopyN tr src (s + 1) n (dst.set d (some w)) (d + 1) with
          | none => none
          | some (.ok dst'') => some (.ok dst'')
          | some (.error _) => some (.error ()) := by
        rw [uninitCopyN, hread]
        simp only [hok, if_true]
        rw [hcons]
      cases r' with
      | ok dst'' =>
        refine ⟨.ok dst'', by rw [hstep, hr'], ?_, fun _ u h => by cases h⟩
        intro dst' heq
        injection heq with heq
        subst heq
        obtain ⟨hlen, hpt⟩ := hokc dst'' rfl
        constructor
        · rw [hlen, List.length_set]
        · intro j
          rw [hpt j]
          by_cases h1 : d + 1 ≤ j ∧ j < d + 1 + n
          · rw [if_pos h1, if_pos (by omega)]
            have : s + 1 + j - (d + 1) = s + j - d := by omega
            rw [this]
          · rw [if_neg h1, getElem?_set_spec _ _ _ _ hdlen]
            by_cases h2 : d = j
            · subst h2
              rw [if_pos rfl, if_pos (by omega)]
              have : s + d - d = s := by omega
              rw [this, hw]
            · rw [if_neg h2, if_neg (by omega)]
      | error u =>
        refine ⟨.error (), by rw [hstep, hr'], ?_, ?_⟩
        · rintro dst' h; cases h
        · intro hall _ _
          refine absurd rfl (herrc ?_ u)
          intro k hk w' hw'
          have : s + (k + 1) = s + 1 + k := by omega
          exact hall (k + 1) (by omega) w' (by rw [this]; exact hw')
    · refine ⟨.error (), ?_, ?_, ?_⟩
      · rw [uninitCopyN, hread]
        simp [hok]
      · rintro dst' h; cases h
      · intro hall
        exact absurd (hall 0 (by omega) w (by rw [Nat.add_zero]; exact hw)) hok

theorem readAt_set (b : RawMemory α) (i j : Nat) (x : Option α)
    (hi : i < b.length) :
    readAt (b.set i x) j = if i = j then x else readAt b j := by
  unfold readAt
  rw [getElem?_set_spec _ _ _ _ hi]
  by_cases h : i = j <;> simp [h]

theorem uninitMoveN_spec (tr : Traits α) :
    ∀ (n : Nat) (src : RawMemory α) (s : Nat) (dst : RawMemory α) (d : Nat),
      (∀ k < n, ∃ w, src[s + k]? = some (some w)) →
      (∀ k < n, dst[d + k]? = some none) →
      ∃ r, uninitMoveN tr src s n dst d = some r ∧
        (∀ src' dst', r = .ok (src', dst') →
          src'.length = src.length ∧ dst'.length = dst.length ∧
          (∀ j, src'[j]? =
            if s ≤ j ∧ j < s + n then (src[j]?).map (Option.map tr.moved)
            else src[j]?) ∧
          (∀ j, dst'[j]? = if d ≤ j ∧ j < d + n then src[s + j - d]? else dst[j]?)) ∧
        (∀ src', r = .error src' →
          src'.length = src.length ∧
          ∀ j, (readAt src' j).isSome = (readAt src j).isSome) ∧
        ((∀ k < n, ∀ w, src[s + k]? = some (some w) → tr.moveCtorOk w = true) →
          ∀ u, r ≠ .error u) := by
  intro n
  induction n with
  | zero =>
    intro src s dst d hsrc hdst
    refine ⟨.ok (src, dst), rfl, ?_, ?_, fun _ u h => Except.noConfusion h⟩
    · intro src' dst' heq
      injection heq with heq
      injection heq with h1 h2
      subst h1; subst h2
      exact ⟨rfl, rfl, fun j => by rw [if_neg (by omega)],
        fun j => by rw [if_neg (by omega)]⟩
    · intro src' h; exact Except.noConfusion h
  | succ n ih =>
    intro src s dst d hsrc hdst
    obtain ⟨w, hw⟩ := hsrc 0 (by omega)
    rw [Nat.add_zero] at hw
    have hslen : s < src.length := lt_length_of_getElem?_eq_some hw
    have hdlen : d < dst.length :=
      lt_length_of_getElem?_eq_some (by simpa using hdst 0 (by omega))
    have hread : readAt src s = some w := readAt_eq_some_iff.mpr hw
    by_cases hmk : tr.moveCtorOk w = true
    · have hcons : constructAt dst d w = some (dst.set d (some w)) :=
        constructAt_eq_some.mpr ⟨by simpa using hdst 0 (by omega), rfl⟩
      have hasg : assignAt src s (tr.moved w) =
          some (src.set s (some (tr.moved w))) :=
        assignAt_eq_some.mpr ⟨⟨w, hw⟩, rfl⟩
      obtain ⟨r', hr', hokc, herc, hnec⟩ :=
        ih (src.set s (some (tr.moved w))) (s + 1) (dst.set d (some w)) (d + 1)
          (by
            intro k hk
            obtain ⟨w', hw'⟩ := hsrc (k + 1) (by omega)
            refine ⟨w', ?_⟩
            rw [getElem?_set_spec _ _ _ _ hslen, if_neg (by omega)]
            have : s + 1 + k = s + (k + 1) := by omega
            rw [this]; exact hw')
          (by
            intro k hk
            rw [getElem?_set_spec _ _ _ _ hdlen, if_neg (by omega)]
            have : d + 1 + k = d + (k + 1) := by omega
            rw [this]; exact hdst (k + 1) (by omega))
      have hstep : uninitMoveN tr src s (n + 1) dst d =
          match uninitMoveN tr (src.set s (some (tr.moved w))) (s + 1) n
              (dst.set d (some w)) (d + 1) with
          | none => none
          | some (.ok (a, c)) => some (.ok (a, c))
          | some (.error e) => some (.error e) := by
        rw [uninitMoveN, hread]
        simp only [hmk, if_true, hcons, hasg]
      cases r' with
      | ok pr =>
        obtain ⟨src2, dst2⟩ := pr
        obtain ⟨hsl, hdl, hsp, hdp⟩ := hokc src2 dst2 rfl
        refine ⟨.ok (src2, dst2), by rw [hstep, hr'], ?_, ?_,
          fun _ u h => Except.noConfusion h⟩
        · intro src' dst' heq
          injection heq with heq
          injection heq with h1 h2
          subst h1; subst h2
          refine ⟨by rw [hsl, List.length_set], by rw [hdl, List.length_set], ?_, ?_⟩
          · intro j
            rw [hsp j]
            by_cases h1 : s + 1 ≤ j ∧ j < s + 1 + n
            · rw [if_pos h1, if_pos (by omega),
                getElem?_set_spec _ _ _ _ hslen, if_neg (by omega)]
            · rw [if_neg h1, getElem?_set_spec _ _ _ _ hslen]
              by_cases h2 : s = j
              · subst h2
                rw [if_pos rfl, if_pos (by omega), hw]
                rfl
              · rw [if_neg h2, if_neg (by omega)]
          · intro j
            rw [hdp j]
            by_cases h1 : d + 1 ≤ j ∧ j < d + 1 + n
            · rw [if_pos h1, if_pos (by omega)]
              have h3 : s + 1 + j - (d + 1) = s + j - d := by omega
              rw [h3, getElem?_set_spec _ _ _ _ hslen, if_neg (by omega)]
            · rw [if_neg h1, getElem?_set_spec _ _ _ _ hdlen]
              by_cases h2 : d = j
              · subst h2
                rw [if_pos rfl, if_pos (by omega)]
                have h3 : s + d - d = s := by omega
                rw [h3, hw]
              · rw [if_neg h2, if_neg (by omega)]
        · intro src' h; exact Except.noConfusion h
      | error e =>
        obtain ⟨hel, hep⟩ := herc e rfl
        refine ⟨.error e, by rw [hstep, hr'], ?_, ?_, ?_⟩
        · intro src' dst' h; exact Except.noConfusion h
        · intro src' heq
          injection heq with heq
          subst heq
          refine ⟨by rw [hel, List.length_set], ?_⟩
          intro j
          rw [hep j, readAt_set _ _ _ _ hslen]
          by_cases h2 : s = j
          · subst h2
            rw [if_pos rfl]
            unfold readAt
            rw [hw]
            rfl
          · rw [if_neg h2]
        · intro hall u
          refine absurd rfl (hnec ?_ e)
          intro k hk w' hw'
          refine hall (k + 1) (by omega) w' ?_
          rw [getElem?_set_spec _ _ _ _ hslen, if_neg (by omega)] at hw'
          have : s + (k + 1) = s + 1 + k := by omega
          rw [this]; exact hw'
    · refine ⟨.error src, ?_, ?_, ?_, ?_⟩
      · rw [uninitMoveN, hread]
        simp [hmk]
      · intro src' dst' h; exact Except.noConfusion h
      · intro src' heq
        injection heq with heq
        subst heq
        exact ⟨rfl, fun j => rfl⟩
      · intro hall
        exact absurd (hall 0 (by omega) w (by rw [Nat.add_zero]; exact hw)) hmk

theorem copyAssignN_spec (tr : Traits α) :
    ∀ (n : Nat) (src : RawMemory α) (s : Nat) (dst : RawMemory α) (d : Nat),
      (∀ k < n, ∃ w, src[s + k]? = some (some w)) →
      (∀ k < n, ∃ w, dst[d + k]? = some (some w)) →
      ∃ r, copyAssignN tr src s n dst d = some r ∧
        (∀ dst', r = .ok dst' → dst'.length = dst.length ∧
          ∀ j, dst'[j]? = if d ≤ j ∧ j < d + n then src[s + j - d]? else dst[j]?) ∧
        (∀ dst', r = .error dst' → dst'.length = dst.length ∧
          ∀ j, (readAt dst' j).isSome = (readAt dst j).isSome) ∧
        ((∀ k < n, ∀ w, src[s + k]? = some (some w) → tr.copyAsgOk w = true) →
          ∀ u, r ≠ .error u) := by
  intro n
  induction n with
  | zero =>
    intro src s dst d hsrc hdst
    refine ⟨.ok dst, rfl, ?_, ?_, fun _ u h => Except.noConfusion h⟩
    · intro dst' heq
      injection heq with heq
      subst heq
      exact ⟨rfl, fun j => by rw [if_neg (by omega)]⟩
    · intro dst' h; exact Except.noConfusion h
  | succ n ih =>
    intro src s dst d hsrc hdst
    obtain ⟨w, hw⟩ := hsrc 0 (by omega)
    rw [Nat.add_zero] at hw
    obtain ⟨w0, hw0⟩ := hdst 0 (by omega)
    rw [Nat.add_zero] at hw0
    have hdlen : d < dst.length := lt_length_of_getElem?_eq_some hw0
    have hread : readAt src s = some w := readAt_eq_some_iff.mpr hw
    by_cases hok : tr.copyAsgOk w = true
    · have hasg : assignAt dst d w = some (dst.set d (some w)) :=
        assignAt_eq_some.mpr ⟨⟨w0, hw0⟩, rfl⟩
      obtain ⟨r', hr', hokc, herc, hnec⟩ :=
        ih src (s + 1) (dst.set d (some w)) (d + 1)
          (by
            intro k hk
            obtain ⟨w', hw'⟩ := hsrc (k + 1) (by omega)
            refine ⟨w', ?_⟩
            have : s + 1 + k = s + (k + 1) := by omega
            rw [this]; exact hw')
          (by
            intro k hk
            obtain ⟨w', hw'⟩ := hdst (k + 1) (by omega)
            refine ⟨w', ?_⟩
            rw [getElem?_set_spec _ _ _ _ hdlen, if_neg (by omega)]
            have : d + 1 + k = d + (k + 1) := by omega
            rw [this]; exact hw')
      have hstep : copyAssignN tr src s (n + 1) dst d =
          match copyAssignN tr src (s + 1) n (dst.set d (some w)) (d + 1) with
          | none => none
          | some (.ok c) => some (.ok c)
          | some (.error e) => some (.error e) := by
        rw [copyAssignN, hread]
        simp only [hok, if_true, hasg]
      cases r' with
      | ok dst2 =>
        obtain ⟨hdl, hdp⟩ := hokc dst2 rfl
        refine ⟨.ok dst2, by rw [hstep, hr'], ?_, ?_,
          fun _ u h => Except.noConfusion h⟩
        · intro dst' heq
          injection heq with heq
          subst heq
          refine ⟨by rw [hdl, List.length_set], ?_⟩
          intro j
          rw [hdp j]
          by_cases h1 : d + 1 ≤ j ∧ j < d + 1 + n
          · rw [if_pos h1, if_pos (by omega)]
            have h3 : s + 1 + j - (d + 1) = s + j - d := by omega
            rw [h3]
          · rw [if_neg h1, getElem?_set_spec _ _ _ _ hdlen]
            by_cases h2 : d = j
            · subst h2
              rw [if_pos rfl, if_pos (by omega)]
              have h3 : s + d - d = s := by omega
              rw [h3, hw]
            · rw [if_neg h2, if_neg (by omega)]
        · intro dst' h; exact Except.noConfusion h
      | error e =>
        obtain ⟨hel, hep⟩ := herc e rfl
        refine ⟨.error e, by rw [hstep, hr'], ?_, ?_, ?_⟩
        · intro dst' h; exact Except.noConfusion h
        · intro dst' heq
          injection heq with heq
          subst heq
          refine ⟨by rw [hel, List.length_set], ?_⟩
          intro j
          rw [hep j, readAt_set _ _ _ _ hdlen]
          by_cases h2 : d = j
          · subst h2
            rw [if_pos rfl]
            unfold readAt
            rw [hw0]
            rfl
          · rw [if_neg h2]
        · intro hall u
          refine absurd rfl (hnec ?_ e)
          intro k hk w' hw'
          refine hall (k + 1) (by omega) w' ?_
          have : s + (k + 1) = s + 1 + k := by omega
          rw [this]; exact hw'
    · refine ⟨.error dst, ?_, ?_, ?_, ?_⟩
      · rw [copyAssignN, hread]
        simp [hok]
      · intro dst' h; exact Except.noConfusion h
      · intro dst' heq
        injection heq with heq
        subst heq
        exact ⟨rfl, fun j => rfl⟩
      · intro hall
        exact absurd (hall 0 (by omega) w (by rw [Nat.add_zero]; exact hw)) hok

theorem uninitValueConstructN_spec (tr : Traits α) :
    ∀ (n : Nat) (b : RawMemory α) (s : Nat),
      (∀ k < n, b[s + k]? = some none) →
      ∃ r, uninitValueConstructN tr b s n = some r ∧
        (∀ b', r = .ok b' → b'.length = b.length ∧
          ∀ j, b'[j]? =
            if s ≤ j ∧ j < s + n then some (some tr.defaultVal) else b[j]?) ∧
        (tr.defaultOk = true → ∀ u, r ≠ .error u) := by
  intro n
  induction n with
  | zero =>
    intro b s h
    refine ⟨.ok b, rfl, ?_, fun _ u h => Except.noConfusion h⟩
    intro b' heq
    injection heq with heq
    subst heq
    exact ⟨rfl, fun j => by rw [if_neg (by omega)]⟩
  | succ n ih =>
    intro b s h
    have hw := h 0 (by omega)
    rw [Nat.add_zero] at hw
    have hslen : s < b.length := lt_length_of_getElem?_eq_some hw
    by_cases hd : tr.defaultOk = true
    · have hcons : constructAt b s tr.defaultVal =
          some (b.set s (some tr.defaultVal)) :=
        constructAt_eq_some.mpr ⟨hw, rfl⟩
      obtain ⟨r', hr', hokc, hnec⟩ :=
        ih (b.set s (some tr.defaultVal)) (s + 1) (by
          intro k hk
          rw [getElem?_set_spec _ _ _ _ hslen, if_neg (by omega)]
          have : s + 1 + k = s + (k + 1) := by omega
          rw [this]; exact h (k + 1) (by omega))
      have hstep : uninitValueConstructN tr b s (n + 1) =
          match uninitValueConstructN tr (b.set s (some tr.defaultVal)) (s + 1) n with
          | none => none
          | some (.ok c) => some (.ok c)
          | some (.error _) => some (.error ()) := by
        rw [uninitValueConstructN]
        simp only [hd, if_true, hcons]
      cases r' with
      | ok b2 =>
        obtain ⟨hbl, hbp⟩ := hokc b2 rfl
        refine ⟨.ok b2, by rw [hstep, hr'], ?_, fun _ u h => Except.noConfusion h⟩
        intro b' heq
        injection heq with heq
        subst heq
        refine ⟨by rw [hbl, List.length_set], ?_⟩
        intro j
        rw [hbp j]
        by_cases h1 : s + 1 ≤ j ∧ j < s + 1 + n
        · rw [if_pos h1, if_pos (by omega)]
        · rw [if_neg h1, getElem?_set_spec _ _ _ _ hslen]
          by_cases h2 : s = j
          · subst h2; rw [if_pos rfl, if_pos (by omega)]
          · rw [if_neg h2, if_neg (by omega)]
      | error u =>
        exact absurd rfl (hnec hd u)
    · refine ⟨.error (), ?_, ?_, fun hd' => absurd hd' hd⟩
      · rw [uninitValueConstructN]
        simp [hd]
      · intro b' h'; exact Except.noConfusion h'

theorem shiftUpOne_spec (tr : Traits α) :
    ∀ (n : Nat) (b : RawMemory α) (first : Nat),
      (∀ j, first ≤ j → j ≤ first + n → ∃ w, b[j]? = some (some w)) →
      ∃ r, shiftUpOne tr b first n = some r ∧
        (∀ b', r = .ok b' → b'.length = b.length ∧
          ∀ j, b'[j]? =
            if first = j ∧ 0 < n then (b[j]?).map (Option.map tr.moved)
            else if first < j ∧ j ≤ first + n then b[j - 1]?
            else b[j]?) ∧
        (∀ b', r = .error b' → b'.length = b.length ∧
          ∀ j, (readAt b' j).isSome = (readAt b j).isSome) ∧
        ((∀ j w, first ≤ j → j < first + n → b[j]? = some (some w) →
            tr.moveAsgOk w = true) →
          ∀ u, r ≠ .error u) := by
  intro n
  induction n with
  | zero =>
    intro b first h
    refine ⟨.ok b, rfl, ?_, ?_, fun _ u h => Except.noConfusion h⟩
    · intro b' heq
      injection heq with heq
      subst heq
      refine ⟨rfl, fun j => ?_⟩
      rw [if_neg (by omega), if_neg (by omega)]
    · intro b' h'; exact Except.noConfusion h'
  | succ n ih =>
    intro b first h
    obtain ⟨w, hw⟩ := h (first + n) (by omega) (by omega)
    have hjlen : first + n < b.length := lt_length_of_getElem?_eq_some hw
    obtain ⟨w1, hw1⟩ := h (first + n + 1) (by omega) (by omega)
    have hjlen1 : first + n + 1 < b.length := lt_length_of_getElem?_eq_some hw1
    have hread : readAt b (first + n) = some w := readAt_eq_some_iff.mpr hw
    by_cases hok : tr.moveAsgOk w = true
    · have hasg1 : assignAt b (first + n + 1) w =
          some (b.set (first + n + 1) (some w)) :=
        assignAt_eq_some.mpr ⟨⟨w1, hw1⟩, rfl⟩
      have hb1 : (b.set (first + n + 1) (some w))[first + n]? = some (some w) := by
        rw [getElem?_set_spec _ _ _ _ hjlen1, if_neg (by omega)]
        exact hw
      have hasg2 : assignAt (b.set (first + n + 1) (some w)) (first + n)
            (tr.moved w) =
          some ((b.set (first + n + 1) (some w)).set (first + n)
            (some (tr.moved w))) :=
        assignAt_eq_some.mpr ⟨⟨w, hb1⟩, rfl⟩
      have hlen2 : ((b.set (first + n + 1) (some w)).set (first + n)
          (some (tr.moved w))).length = b.length := by
        rw [List.length_set, List.length_set]
      have hb2 : ∀ j, ((b.set (first + n + 1) (some w)).set (first + n)
            (some (tr.moved w)))[j]? =
          if first + n = j then some (some (tr.moved w))
          else if first + n + 1 = j then some (some w)
          else b[j]? := by
        intro j
        rw [getElem?_set_spec _ _ _ _ (by rw [List.length_set]; exact hjlen),
          getElem?_set_spec _ _ _ _ hjlen1]
      obtain ⟨r', hr', hokc, herc, hnec⟩ :=
        ih ((b.set (first + n + 1) (some w)).set (first + n) (some (tr.moved w)))
          first (by
            intro j hj1 hj2
            rw [hb2 j]
            by_cases h1 : first + n = j
            · rw [if_pos h1]; exact ⟨tr.moved w, rfl⟩
            · rw [if_neg h1, if_neg (by omega)]
              exact h j hj1 (by omega))
      have hstep : shiftUpOne tr b first (n + 1) =
          match shiftUpOne tr
              ((b.set (first + n + 1) (some w)).set (first + n)
                (some (tr.moved w))) first n with
          | none => none
          | some (.ok c) => some (.ok c)
          | some (.error e) => some (.error e) := by
        rw [shiftUpOne, hread]
        simp only [hok, if_true, hasg1, hasg2]
      cases r' with
      | ok b3 =>
        obtain ⟨hbl, hbp⟩ := hokc b3 rfl
        refine ⟨.ok b3, by rw [hstep, hr'], ?_, ?_,
          fun _ u h => Except.noConfusion h⟩
        · intro b' heq
          injection heq with heq
          subst heq
          refine ⟨by rw [hbl, hlen2], ?_⟩
          intro j
          rw [hbp j]
          by_cases h1 : first = j ∧ 0 < n
          · rw [if_pos h1, if_pos (by omega), hb2 j,
              if_neg (by omega), if_neg (by omega)]
          · rw [if_neg h1]
            by_cases h2 : first < j ∧ j ≤ first + n
            · rw [if_pos h2, hb2 (j - 1), if_neg (by omega), if_neg (by omega),
                if_neg (by omega), if_pos (by omega)]
            · by_cases h3 : first = j ∧ 0 < n + 1
              · -- forced: n = 0 and j = first
                have hn : n = 0 := by omega
                subst hn
                rw [Nat.add_zero] at hw
                have hj : j = first := by omega
                rw [if_neg h2, if_pos h3, hb2 j, hj, if_pos (by omega), hw]
                rfl
              · by_cases h4 : first < j ∧ j ≤ first + (n + 1)
                · -- forced: j = first + n + 1
                  rw [if_neg h2, if_neg h3, if_pos h4, hb2 j,
                    if_neg (by omega), if_pos (by omega)]
                  have h5 : j - 1 = first + n := by omega
                  rw [h5, hw]
                · rw [if_neg h2, if_neg h3, if_neg h4, hb2 j,
                    if_neg (by omega), if_neg (by omega)]
        · intro b' h'; exact Except.noConfusion h'
      | error e =>
        obtain ⟨hel, hep⟩ := herc e rfl
        refine ⟨.error e, by rw [hstep, hr'], ?_, ?_, ?_⟩
        · intro b' h'; exact Except.noConfusion h'
        · intro b' heq
          injection heq with heq
          subst heq
          refine ⟨by rw [hel, hlen2], ?_⟩
          intro j
          rw [hep j]
          unfold readAt
          rw [hb2 j]
          by_cases h1 : first + n = j
          · subst h1
            rw [if_pos rfl, hw]
            rfl
          · rw [if_neg h1]
            by_cases h2 : first + n + 1 = j
            · subst h2
              rw [if_pos rfl, hw1]
              rfl
            · rw [if_neg h2]
        · intro hall u
          refine absurd rfl (hnec ?_ e)
          intro j w' hj1 hj2 hw'
          rw [hb2 j, if_neg (by omega), if_neg (by omega)] at hw'
          exact hall j w' hj1 (by omega) hw'
    · refine ⟨.error b, ?_, ?_, ?_, ?_⟩
      · rw [shiftUpOne, hread]
        simp [hok]
      · intro b' h'; exact Except.noConfusion h'
      · intro b' heq
        injection heq with heq
        subst heq
        exact ⟨rfl, fun j => rfl⟩
      · intro hall
        exact absurd (hall (first + n) w (by omega) (by omega) hw) hok

theorem shiftDownOne_spec (tr : Traits α) :
    ∀ (n : Nat) (b : RawMemory α) (i : Nat),
      (∀ j, i ≤ j → j ≤ i + n → ∃ w, b[j]? = some (some w)) →
      ∃ r, shiftDownOne tr b i n = some r ∧
        (∀ b', r = .ok b' → b'.length = b.length ∧
          ∀ j, b'[j]? =
            if i ≤ j ∧ j < i + n then b[j + 1]?
            else if j = i + n ∧ 0 < n then (b[j]?).map (Option.map tr.moved)
            else b[j]?) ∧
        (∀ b', r = .error b' → b'.length = b.length ∧
          ∀ j, (readAt b' j).isSome = (readAt b j).isSome) ∧
        ((∀ j w, i < j → j ≤ i + n → b[j]? = some (some w) →
            tr.moveAsgOk w = true) →
          ∀ u, r ≠ .error u) := by
  intro n
  induction n with
  | zero =>
    intro b i h
    refine ⟨.ok b, rfl, ?_, ?_, fun _ u h => Except.noConfusion h⟩
    · intro b' heq
      injection heq with heq
      subst heq
      refine ⟨rfl, fun j => ?_⟩
      rw [if_neg (by omega), if_neg (by omega)]
    · intro b' h'; exact Except.noConfusion h'
  | succ n ih =>
    intro b i h
    obtain ⟨w, hw⟩ := h (i + 1) (by omega) (by omega)
    have hjlen1 : i + 1 < b.length := lt_length_of_getElem?_eq_some hw
    obtain ⟨w0, hw0⟩ := h i (by omega) (by omega)
    have hjlen0 : i < b.length := lt_length_of_getElem?_eq_some hw0
    have hread : readAt b (i + 1) = some w := readAt_eq_some_iff.mpr hw
    by_cases hok : tr.moveAsgOk w = true
    · have hasg1 : assignAt b i w = some (b.set i (some w)) :=
        assignAt_eq_some.mpr ⟨⟨w0, hw0⟩, rfl⟩
      have hb1 : (b.set i (some w))[i + 1]? = some (some w) := by
        rw [getElem?_set_spec _ _ _ _ hjlen0, if_neg (by omega)]
        exact hw
      have hasg2 : assignAt (b.set i (some w)) (i + 1) (tr.moved w) =
          some ((b.set i (some w)).set (i + 1) (some (tr.moved w))) :=
        assignAt_eq_some.mpr ⟨⟨w, hb1⟩, rfl⟩
      have hlen2 : ((b.set i (some w)).set (i + 1) (some (tr.moved w))).length =
          b.length := by
        rw [List.length_set, List.length_set]
      have hb2 : ∀ j, ((b.set i (some w)).set (i + 1) (some (tr.moved w)))[j]? =
          if i + 1 = j then some (some (tr.moved w))
          else if i = j then some (some w)
          else b[j]? := by
        intro j
        rw [getElem?_set_spec _ _ _ _ (by rw [List.length_set]; exact hjlen1),
          getElem?_set_spec _ _ _ _ hjlen0]
      obtain ⟨r', hr', hokc, herc, hnec⟩ :=
        ih ((b.set i (some w)).set (i + 1) (some (tr.moved w))) (i + 1) (by
          intro j hj1 hj2
          rw [hb2 j]
          by_cases h1 : i + 1 = j
          · rw [if_pos h1]; exact ⟨tr.moved w, rfl⟩
          · rw [if_neg h1, if_neg (by omega)]
            exact h j (by omega) (by omega))
      have hstep : shiftDownOne tr b i (n + 1) =
          match shiftDownOne tr
              ((b.set i (some w)).set (i + 1) (some (tr.moved w))) (i + 1) n with
          | none => none
          | some (.ok c) => some (.ok c)
          | some (.error e) => some (.error e) := by
        rw [shiftDownOne, hread]
        simp only [hok, if_true, hasg1, hasg2]
      cases r' with
      | ok b3 =>
        obtain ⟨hbl, hbp⟩ := hokc b3 rfl
        refine ⟨.ok b3, by rw [hstep, hr'], ?_, ?_,
          fun _ u h => Except.noConfusion h⟩
        · intro b' heq
          injection heq with heq
          subst heq
          refine ⟨by rw [hbl, hlen2], ?_⟩
          intro j
          rw [hbp j]
          by_cases h1 : i + 1 ≤ j ∧ j < i + 1 + n
          · rw [if_pos h1, if_pos (by omega), hb2 (j + 1),
              if_neg (by omega), if_neg (by omega)]
          · rw [if_neg h1]
            by_cases h2 : j = i + 1 + n ∧ 0 < n
            · rw [if_pos h2, if_neg (by omega), if_pos (by omega), hb2 j,
                if_neg (by omega), if_neg (by omega)]
            · by_cases h3 : i ≤ j ∧ j < i + (n + 1)
              · -- forced: j = i
                have hj : j = i := by omega
                rw [if_neg h2, if_pos h3, hb2 j, if_neg (by omega),
                  if_pos (by omega), hj]
                exact hw.symm
              · by_cases h4 : j = i + (n + 1) ∧ 0 < n + 1
                · -- forced: n = 0 and j = i + 1
                  have hn : n = 0 := by omega
                  subst hn
                  have hj : j = i + 1 := by omega
                  rw [if_neg h2, if_neg h3, if_pos h4, hb2 j,
                    if_pos (by omega), hj, hw]
                  rfl
                · rw [if_neg h2, if_neg h3, if_neg h4, hb2 j,
                    if_neg (by omega), if_neg (by omega)]
        · intro b' h'; exact Except.noConfusion h'
      | error e =>
        obtain ⟨hel, hep⟩ := herc e rfl
        refine ⟨.error e, by rw [hstep, hr'], ?_, ?_, ?_⟩
        · intro b' h'; exact Except.noConfusion h'
        · intro b' heq
          injection heq with heq
          subst heq
          refine ⟨by rw [hel, hlen2], ?_⟩
          intro j
          rw [hep j]
          unfold readAt
          rw [hb2 j]
          by_cases h1 : i + 1 = j
          · subst h1
            rw [if_pos rfl, hw]
            rfl
          · rw [if_neg h1]
            by_cases h2 : i = j
            · subst h2
              rw [if_pos rfl, hw0]
              rfl
            · rw [if_neg h2]
        · intro hall u
          refine absurd rfl (hnec ?_ e)
          intro j w' hj1 hj2 hw'
          rw [hb2 j, if_neg (by omega), if_neg (by omega)] at hw'
          exact hall j w' (by omega) (by omega) hw'
    · refine ⟨.error b, ?_, ?_, ?_, ?_⟩
      · rw [shiftDownOne, hread]
        simp [hok]
      · intro b' h'; exact Except.noConfusion h'
      · intro b' heq
        injection heq with heq
        subst heq
        exact ⟨rfl, fun j => rfl⟩
      · intro hall
        exact absurd (hall (i + 1) w (by omega) (by omega) hw) hok

theorem eq_none_of_isSome_eq_false {β : Type} {o : Option β}
    (h : o.isSome = false) : o = none := by
  cases o with
  | none => rfl
  | some w => simp at h

theorem Vector.WF.live {v : Vector α} (hw : v.WF) {i : Nat} (hi : i < v.size_) :
    ∃ w, v.data_[i]? = some (some w) := by
  obtain ⟨hle, hiff⟩ := hw
  exact readAt_isSome_iff.mp ((hiff i (by omega)).mpr hi)

theorem Vector.WF.free {v : Vector α} (hw : v.WF) {i : Nat} (h1 : v.size_ ≤ i)
    (h2 : i < v.data_.length) : v.data_[i]? = some none := by
  obtain ⟨hle, hiff⟩ := hw
  have hno : ¬(readAt v.data_ i).isSome = true := by
    rw [hiff i h2]; omega
  have hx := List.getElem?_eq_getElem h2
  cases ho : v.data_[i] with
  | none => rw [hx, ho]
  | some w =>
    rw [ho] at hx
    exact absurd (readAt_isSome_iff.mpr ⟨w, hx⟩) hno

theorem Vector.WF_of_pointwise {b : RawMemory α} {sz : Nat} (hle : sz ≤ b.length)
    (hlive : ∀ i < sz, ∃ w, b[i]? = some (some w))
    (hfree : ∀ i, sz ≤ i → i < b.length → b[i]? = some none) :
    Vector.WF ⟨b, sz⟩ := by
  refine ⟨hle, ?_⟩
  intro i hlen
  constructor
  · intro hs
    by_contra hge
    obtain ⟨o, ho⟩ := readAt_isSome_iff.mp hs
    rw [hfree i (Nat.not_lt.mp hge) hlen] at ho
    exact Option.noConfusion (Option.some.inj ho)
  · intro hi
    exact readAt_isSome_iff.mpr (hlive i hi)

theorem RawMemory.CopyOrMoveData_spec (tr : Traits α) (src : RawMemory α)
    (s n : Nat) (dst : RawMemory α) (d : Nat)
    (hsrc : ∀ k < n, ∃ w, src[s + k]? = some (some w))
    (hdst : ∀ k < n, dst[d + k]? = some none) :
    ∃ r, RawMemory.CopyOrMoveData tr src s n dst d = some r ∧
      (∀ src' dst', r = .ok (src', dst') →
        src'.length = src.length ∧ dst'.length = dst.length ∧
        (∀ j, dst'[j]? = if d ≤ j ∧ j < d + n then src[s + j - d]? else dst[j]?) ∧
        (∀ j, (readAt src' j).isSome = (readAt src j).isSome) ∧
        ((tr.nothrowMove || !tr.copyConstructible) = false → src' = src) ∧
        ((tr.nothrowMove || !tr.copyConstructible) = true →
          ∀ j, src'[j]? =
            if s ≤ j ∧ j < s + n then (src[j]?).map (Option.map tr.moved)
            else src[j]?)) ∧
      (∀ src' dst', r = .error (src', dst') →
        dst' = dst ∧ src'.length = src.length ∧
        (∀ j, (readAt src' j).isSome = (readAt src j).isSome) ∧
        ((tr.nothrowMove || !tr.copyConstructible) = false → src' = src)) ∧
      (tr.Coherent → tr.nothrowMove = true → ∀ e, r ≠ .error e) ∧
      ((∀ k < n, ∀ w, src[s + k]? = some (some w) →
          tr.copyOk w = true ∧ tr.moveCtorOk w = true) →
        ∀ e, r ≠ .error e) := by
  by_cases hbr : (tr.nothrowMove || !tr.copyConstructible) = true
  · obtain ⟨r', hr', hokc, herc, hnec⟩ := uninitMoveN_spec tr n src s dst d hsrc hdst
    cases r' with
    | ok pr =>
      obtain ⟨src', dst'⟩ := pr
      obtain ⟨hsl, hdl, hsp, hdp⟩ := hokc src' dst' rfl
      refine ⟨.ok (src', dst'), ?_, ?_, ?_, fun _ _ e h => Except.noConfusion h,
        fun _ e h => Except.noConfusion h⟩
      · unfold RawMemory.CopyOrMoveData
        rw [if_pos hbr, hr']
      · intro a c heq
        injection heq with heq
        injection heq with h1 h2
        subst h1; subst h2
        refine ⟨hsl, hdl, hdp, ?_, ?_, fun _ => hsp⟩
        · intro j
          unfold readAt
          rw [hsp j]
          by_cases h1 : s ≤ j ∧ j < s + n
          · rw [if_pos h1]
            cases src[j]? with
            | none => rfl
            | some o => cases o <;> rfl
          · rw [if_neg h1]
        · intro hfalse
          rw [hfalse] at hbr
          exact absurd hbr (by simp)
      · intro a c h; exact Except.noConfusion h
    | error e =>
      obtain ⟨hel, hep⟩ := herc e rfl
      refine ⟨.error (e, dst), ?_, ?_, ?_, ?_, ?_⟩
      · unfold RawMemory.CopyOrMoveData
        rw [if_pos hbr, hr']
      · intro a c h; exact Except.noConfusion h
      · intro src' dst' heq
        injection heq with heq
        injection heq with h1 h2
        subst h1; subst h2
        refine ⟨rfl, hel, hep, ?_⟩
        intro hfalse
        rw [hfalse] at hbr
        exact absurd hbr (by simp)
      · intro hcoh hnt u h
        refine absurd rfl (hnec ?_ e)
        intro k hk w hw'
        exact hcoh hnt w
      · intro hall u h
        refine absurd rfl (hnec ?_ e)
        intro k hk w hw'
        exact (hall k hk w hw').2
  · have hbr' : (tr.nothrowMove || !tr.copyConstructible) = false := by
      cases hx : (tr.nothrowMove || !tr.copyConstructible) with
      | true => exact absurd hx hbr
      | false => rfl
    obtain ⟨r', hr', hokc, hnec⟩ := uninitCopyN_spec tr n src s dst d hsrc hdst
    cases r' with
    | ok dst' =>
      obtain ⟨hdl, hdp⟩ := hokc dst' rfl
      refine ⟨.ok (src, dst'), ?_, ?_, ?_, fun _ _ e h => Except.noConfusion h,
        fun _ e h => Except.noConfusion h⟩
      · unfold RawMemory.CopyOrMoveData
        rw [if_neg hbr, hr']
      · intro a c heq
        injection heq with heq
        injection heq with h1 h2
        subst h1; subst h2
        refine ⟨rfl, hdl, hdp, fun j => rfl, fun _ => rfl, ?_⟩
        intro htrue
        rw [htrue] at hbr'
        exact absurd hbr' (by simp)
      · intro a c h; exact Except.noConfusion h
    | error u =>
      refine ⟨.error (src, dst), ?_, ?_, ?_, ?_, ?_⟩
      · unfold RawMemory.CopyOrMoveData
        rw [if_neg hbr, hr']
      · intro a c h; exact Except.noConfusion h
      · intro src' dst' heq
        injection heq with heq
        injection heq with h1 h2
        subst h1; subst h2
        exact ⟨rfl, rfl, fun j => rfl, fun _ => rfl⟩
      · intro hcoh hnt e h
        rw [hnt] at hbr'
        exact absurd hbr' (by simp)
      · intro hall e h
        refine absurd rfl (hnec ?_ u)
        intro k hk w hw'
        exact (hall k hk w hw').1

theorem readAt_congr {b b' : RawMemory α} {j j' : Nat} (h : b[j]? = b'[j']?) :
    readAt b j = readAt b' j' := by
  unfold readAt; rw [h]

theorem Vector.WF.readAt_none {v : Vector α} (hw : v.WF) {j : Nat}
    (hj : v.size_ ≤ j) : readAt v.data_ j = none := by
  by_cases h : j < v.data_.length
  · cases hx : readAt v.data_ j with
    | none => rfl
    | some w =>
      have hs : (readAt v.data_ j).isSome = true := by rw [hx]; rfl
      rw [hw.2 j h] at hs
      omega
  · unfold readAt
    rw [List.getElem?_eq_none (by omega)]
    rfl

theorem Vector.WF.readAt_some {v : Vector α} (hw : v.WF) {i : Nat}
    (hi : i < v.size_) : ∃ w, readAt v.data_ i = some w := by
  obtain ⟨w, hw'⟩ := hw.live hi
  exact ⟨w, readAt_eq_some_iff.mpr hw'⟩

theorem Vector.WF_of_isSome_eq {v : Vector α} (hw : v.WF) {b : RawMemory α}
    (hlen : b.length = v.data_.length)
    (hlive : ∀ j, (readAt b j).isSome = (readAt v.data_ j).isSome) :
    Vector.WF ⟨b, v.size_⟩ := by
  constructor
  · rw [hlen]; exact hw.1
  · intro i hi
    show (readAt b i).isSome = true ↔ i < v.size_
    rw [hlive i]
    exact hw.2 i (by rw [← hlen]; exact hi)

theorem getElem?_replicate_none {n k : Nat} (h : k < n) :
    (List.replicate n (none : Option α))[k]? = some none := by
  rw [List.getElem?_replicate, if_pos h]

theorem Vector.ReserveFull_spec (tr : Traits α) (v : Vector α) (n : Nat)
    (hw : v.WF) (hn : v.Capacity < n) :
    ∃ r, v.ReserveFull tr n = some r ∧
      (∀ v' old', r = .ok (v', old') → v'.WF ∧ v'.size_ = v.size_ ∧
        v'.Capacity = n ∧
        (∀ i < v.size_, readAt v'.data_ i = readAt v.data_ i) ∧
        (∀ j, readAt old' j = none)) ∧
      (∀ v' tmp, r = .error (v', tmp) → v'.size_ = v.size_ ∧
        v'.Capacity = v.Capacity ∧ v'.WF ∧
        (∀ j, readAt tmp j = none) ∧
        ((tr.nothrowMove || !tr.copyConstructible) = false → v' = v)) ∧
      (tr.Coherent → tr.nothrowMove = true → ∀ e, r ≠ .error e) ∧
      ((∀ k < v.size_, ∀ w, v.data_[k]? = some (some w) →
          tr.copyOk w = true ∧ tr.moveCtorOk w = true) →
        ∀ e, r ≠ .error e) := by
  obtain ⟨rc, hrc, hokc, herc, hcoh, hall⟩ :=
    RawMemory.CopyOrMoveData_spec tr v.data_ 0 v.size_
      (List.replicate n none) 0
      (by intro k hk; rw [Nat.zero_add]; exact hw.live hk)
      (by
        intro k hk
        rw [Nat.zero_add]
        exact getElem?_replicate_none (by
          have h1 := hw.1
          unfold Vector.Capacity at hn
          omega))
  have hunf : v.ReserveFull tr n =
      match RawMemory.CopyOrMoveData tr v.data_ 0 v.size_
          (List.replicate n none) 0 with
      | none => none
      | some (.error (src', nd')) => some (.error (⟨src', v.size_⟩, nd'))
      | some (.ok (src', nd')) =>
        match destroyN src' 0 v.size_ with
        | none => none
        | some old' => some (.ok (⟨nd', v.size_⟩, old')) := by
    unfold Vector.ReserveFull
    rw [if_neg (by omega)]
  cases rc with
  | ok pr =>
    obtain ⟨src', nd'⟩ := pr
    obtain ⟨hsl, hdl, hdp, hslive, hcopy, hmove⟩ := hokc src' nd' rfl
    have hlive' : ∀ k < v.size_, ∃ w, src'[0 + k]? = some (some w) := by
      intro k hk
      rw [Nat.zero_add]
      refine readAt_isSome_iff.mp ?_
      rw [hslive k]
      exact readAt_isSome_iff.mpr (hw.live hk)
    obtain ⟨old', hold', holen, holdp⟩ := destroyN_spec v.size_ src' 0 hlive'
    refine ⟨.ok (⟨nd', v.size_⟩, old'), ?_, ?_, ?_,
      fun _ _ e h => Except.noConfusion h, fun _ e h => Except.noConfusion h⟩
    · rw [hunf, hrc]
      simp only [hold']
    · intro v' o' heq
      injection heq with heq
      injection heq with h1 h2
      subst h1; subst h2
      have hcap : nd'.length = n := by rw [hdl, List.length_replicate]
      have hle : v.size_ ≤ n := by
        have := hw.1
        unfold Vector.Capacity at hn
        omega
      refine ⟨?_, rfl, hcap, ?_, ?_⟩
      · refine Vector.WF_of_pointwise (by rw [hcap]; exact hle) ?_ ?_
        · intro i hi
          have := hdp i
          rw [if_pos (by omega)] at this
          rw [this, Nat.zero_add, Nat.sub_zero]
          exact hw.live hi
        · intro i h1 h2
          have := hdp i
          rw [if_neg (by omega)] at this
          rw [this]
          exact getElem?_replicate_none (by rw [hcap] at h2; exact h2)
      · intro i hi
        refine readAt_congr ?_
        have := hdp i
        rw [if_pos (by omega)] at this
        rw [this, Nat.zero_add, Nat.sub_zero]
      · intro j
        have := holdp j
        by_cases h1 : 0 ≤ j ∧ j < 0 + v.size_
        · rw [if_pos h1] at this
          unfold readAt
          rw [this]
          rfl
        · rw [if_neg h1] at this
          rw [readAt_congr this]
          refine eq_none_of_isSome_eq_false ?_
          rw [hslive j]
          have hx := hw.readAt_none (show v.size_ ≤ j from by omega)
          rw [hx]
          rfl
    · intro v' tmp h; exact Except.noConfusion h
  | error pr =>
    obtain ⟨src', nd'⟩ := pr
    obtain ⟨hnd, hsl, hslive, hcopy⟩ := herc src' nd' rfl
    refine ⟨.error (⟨src', v.size_⟩, nd'), ?_, ?_, ?_, ?_, ?_⟩
    · rw [hunf, hrc]
    · intro v' o' h; exact Except.noConfusion h
    · intro v' tmp heq
      injection heq with heq
      injection heq with h1 h2
      subst h1; subst h2
      refine ⟨rfl, ?_, ?_, ?_, ?_⟩
      · show src'.length = v.Capacity
        rw [hsl]; rfl
      · exact Vector.WF_of_isSome_eq hw hsl hslive
      · intro j
        rw [hnd]
        by_cases h1 : j < n
        · unfold readAt
          rw [getElem?_replicate_none h1]
          rfl
        · unfold readAt
          rw [List.getElem?_eq_none (by rw [List.length_replicate]; omega)]
          rfl
      · intro hf
        have := hcopy hf
        subst this
        rfl
    · intro h1 h2 e heq
      exact absurd rfl (hcoh h1 h2 (src', nd'))
    · intro h1 e heq
      refine absurd rfl (hall ?_ (src', nd'))
      intro k hk w hw'
      rw [Nat.zero_add] at hw'
      exact h1 k hk w hw'

theorem Vector.Reserve_spec (tr : Traits α) (v : Vector α) (n : Nat)
    (hw : v.WF) :
    ∃ r, v.Reserve tr n = some r ∧
      (∀ v', r = .ok v' → v'.WF ∧ v'.size_ = v.size_ ∧
        (∀ i < v.size_, readAt v'.data_ i = readAt v.data_ i) ∧
        v'.Capacity = max v.Capacity n) ∧
      (∀ v', r = .error v' → v'.size_ = v.size_ ∧
        v'.Capacity = v.Capacity ∧ v'.WF ∧
        ((tr.nothrowMove || !tr.copyConstructible) = false → v' = v)) ∧
      (tr.Coherent → tr.nothrowMove = true → ∀ e, r ≠ .error e) ∧
      ((∀ k < v.size_, ∀ w, v.data_[k]? = some (some w) →
          tr.copyOk w = true ∧ tr.moveCtorOk w = true) →
        ∀ e, r ≠ .error e) := by
  by_cases hn : n ≤ v.Capacity
  · have : v.ReserveFull tr n = some (.ok (v, [])) := by
      unfold Vector.ReserveFull
      rw [if_pos hn]
    refine ⟨.ok v, ?_, ?_, ?_, fun _ _ e h => Except.noConfusion h,
      fun _ e h => Except.noConfusion h⟩
    · unfold Vector.Reserve
      rw [this]
    · intro v' heq
      injection heq with heq
      subst heq
      exact ⟨hw, rfl, fun i hi => rfl, by omega⟩
    · intro v' h; exact Except.noConfusion h
  · obtain ⟨rc, hrc, hokc, herc, hcoh, hall⟩ :=
      Vector.ReserveFull_spec tr v n hw (by omega)
    cases rc with
    | ok pr =>
      obtain ⟨v', old'⟩ := pr
      obtain ⟨h1, h2, h3, h4, h5⟩ := hokc v' old' rfl
      refine ⟨.ok v', ?_, ?_, ?_, fun _ _ e h => Except.noConfusion h,
        fun _ e h => Except.noConfusion h⟩
      · unfold Vector.Reserve
        rw [hrc]
      · intro v'' heq
        injection heq with heq
        subst heq
        exact ⟨h1, h2, h4, by omega⟩
      · intro v'' h; exact Except.noConfusion h
    | error pr =>
      obtain ⟨v', tmp⟩ := pr
      obtain ⟨h1, h2, h3, h4, h5⟩ := herc v' tmp rfl
      refine ⟨.error v', ?_, ?_, ?_, ?_, ?_⟩
      · unfold Vector.Reserve
        rw [hrc]
      · intro v'' h; exact Except.noConfusion h
      · intro v'' heq
        injection heq with heq
        subst heq
        exact ⟨h1, h2, h3, h5⟩
      · intro hc hnt e heq
        exact absurd rfl (hcoh hc hnt (v', tmp))
      · intro ha e heq
        exact absurd rfl (hall ha (v', tmp))

theorem Vector.EmplaceWithReallocAux_spec (tr : Traits α) (v : Vector α)
    (offset : Nat) (mkArg : RawMemory α → Option α) (nc : Nat)
    (hw : v.WF) (hoff : offset ≤ v.size_) (hnc : v.size_ < nc) :
    ∃ r, v.EmplaceWithReallocAux tr offset mkArg nc = some r ∧
      (∀ v'' old' p, r = .ok (v'', old', p) → p = offset ∧ v''.WF ∧
        v''.size_ = v.size_ + 1 ∧ v''.Capacity = nc ∧
        (∀ j, readAt old' j = none) ∧
        (∀ j < offset, readAt v''.data_ j = readAt v.data_ j) ∧
        (∀ x, mkArg v.data_ = some x → readAt v''.data_ offset = some x) ∧
        (∀ j, offset < j → j < v.size_ + 1 →
          readAt v''.data_ j = readAt v.data_ (j - 1))) ∧
      (∀ v' tmp, r = .error (v', tmp) → v'.size_ = v.size_ ∧
        v'.Capacity = v.Capacity ∧ v'.WF ∧
        ((tr.nothrowMove || !tr.copyConstructible) = false → v' = v)) ∧
      ((mkArg v.data_).isSome = true → tr.Coherent → tr.nothrowMove = true →
        ∀ e, r ≠ .error e) ∧
      ((mkArg v.data_).isSome = true →
        (∀ k < v.size_, ∀ w, v.data_[k]? = some (some w) →
          tr.copyOk w = true ∧ tr.moveCtorOk w = true) →
        ∀ e, r ≠ .error e) := by
  cases harg : mkArg v.data_ with
  | none =>
    refine ⟨.error (v, List.replicate nc none), ?_, ?_, ?_, ?_, ?_⟩
    · unfold Vector.EmplaceWithReallocAux
      rw [harg]
    · intro a b c h; exact Except.noConfusion h
    · intro v' tmp heq
      injection heq with heq
      injection heq with h1 h2
      subst h1; subst h2
      exact ⟨rfl, rfl, hw, fun _ => rfl⟩
    · intro hs
      exact absurd hs (by simp)
    · intro hs
      exact absurd hs (by simp)
  | some x =>
    have hoffnc : offset < nc := by omega
    have hcons : constructAt (List.replicate nc (none : Option α)) offset x =
        some ((List.replicate nc (none : Option α)).set offset (some x)) :=
      constructAt_eq_some.mpr ⟨getElem?_replicate_none hoffnc, rfl⟩
    have hnd1 : ∀ j,
        ((List.replicate nc (none : Option α)).set offset (some x))[j]? =
          if offset = j then some (some x)
          else if j < nc then some none else none := by
      intro j
      rw [getElem?_set_spec _ _ _ _ (by rw [List.length_replicate]; exact hoffnc)]
      by_cases h1 : offset = j
      · rw [if_pos h1, if_pos h1]
      · rw [if_neg h1, if_neg h1, List.getElem?_replicate]
    obtain ⟨rcP, hrcP, hokP, herP, hcohP, hallP⟩ :=
      RawMemory.CopyOrMoveData_spec tr v.data_ 0 offset
        ((List.replicate nc (none : Option α)).set offset (some x)) 0
        (by intro k hk; rw [Nat.zero_add]; exact hw.live (by omega))
        (by
          intro k hk
          rw [Nat.zero_add, hnd1 k, if_neg (by omega), if_pos (by omega)])
    cases rcP with
    | error pr =>
      obtain ⟨srcE, dstE⟩ := pr
      obtain ⟨hdE, hlE, hliveE, hcopyE⟩ := herP srcE dstE rfl
      have hdes : destroyAt dstE offset = some (dstE.set offset none) := by
        refine destroyAt_eq_some.mpr ⟨⟨x, ?_⟩, rfl⟩
        rw [hdE, hnd1 offset, if_pos rfl]
      refine ⟨.error (⟨srcE, v.size_⟩, dstE.set offset none), ?_, ?_, ?_, ?_, ?_⟩
      · unfold Vector.EmplaceWithReallocAux
        simp only [harg, hcons, hrcP, hdes]
      · intro a b c h; exact Except.noConfusion h
      · intro v' tmp heq
        injection heq with heq
        injection heq with h1 h2
        subst h1; subst h2
        refine ⟨rfl, ?_, ?_, ?_⟩
        · show srcE.length = v.Capacity
          rw [hlE]; rfl
        · exact Vector.WF_of_isSome_eq hw hlE hliveE
        · intro hf
          have h1 := hcopyE hf
          subst h1
          rfl
      · intro _ hc hnt e heq
        exact absurd rfl (hcohP hc hnt (srcE, dstE))
      · intro _ hall e heq
        refine absurd rfl (hallP ?_ (srcE, dstE))
        intro k hk w hw'
        rw [Nat.zero_add] at hw'
        exact hall k (by omega) w hw'
    | ok pr =>
      obtain ⟨src1, nd2⟩ := pr
      obtain ⟨hsl1, hdl1, hdp1, hlive1, hcopy1, hmove1⟩ := hokP src1 nd2 rfl
      have hsrc1eq : ∀ j, offset ≤ j → src1[j]? = v.data_[j]? := by
        intro j hj
        cases hbr : (tr.nothrowMove || !tr.copyConstructible) with
        | false => rw [hcopy1 hbr]
        | true => rw [hmove1 hbr j, if_neg (by omega)]
      obtain ⟨rcS, hrcS, hokS, herS, hcohS, hallS⟩ :=
        RawMemory.CopyOrMoveData_spec tr src1 offset (v.size_ - offset) nd2
          (offset + 1)
          (by
            intro k hk
            rw [hsrc1eq (offset + k) (by omega)]
            exact hw.live (by omega))
          (by
            intro k hk
            rw [hdp1 (offset + 1 + k), if_neg (by omega), hnd1 (offset + 1 + k),
              if_neg (by omega), if_pos (by omega)])
      cases rcS with
      | error pr2 =>
        obtain ⟨srcE2, dstE2⟩ := pr2
        obtain ⟨hdE2, hlE2, hliveE2, hcopyE2⟩ := herS srcE2 dstE2 rfl
        have hpre : ∀ k < offset, ∃ w, dstE2[0 + k]? = some (some w) := by
          intro k hk
          rw [Nat.zero_add, hdE2, hdp1 k, if_pos (by omega), Nat.zero_add,
            Nat.sub_zero]
          exact hw.live (by omega)
        obtain ⟨nd3, hnd3, hn3len, hn3p⟩ := destroyN_spec offset dstE2 0 hpre
        refine ⟨.error (⟨srcE2, v.size_⟩, nd3), ?_, ?_, ?_, ?_, ?_⟩
        · unfold Vector.EmplaceWithReallocAux
          simp only [harg, hcons, hrcP, hrcS, hnd3]
        · intro a b c h; exact Except.noConfusion h
        · intro v' tmp heq
          injection heq with heq
          injection heq with h1 h2
          subst h1; subst h2
          refine ⟨rfl, ?_, ?_, ?_⟩
          · show srcE2.length = v.Capacity
            rw [hlE2, hsl1]; rfl
          · refine Vector.WF_of_isSome_eq hw (by rw [hlE2, hsl1]) ?_
            intro j; rw [hliveE2 j, hlive1 j]
          · intro hf
            have h1 := hcopyE2 hf
            have h2 := hcopy1 hf
            rw [h1, h2]
        · intro _ hc hnt e heq
          exact absurd rfl (hcohS hc hnt (srcE2, dstE2))
        · intro _ hall e heq
          refine absurd rfl (hallS ?_ (srcE2, dstE2))
          intro k hk w hw'
          rw [hsrc1eq (offset + k) (by omega)] at hw'
          exact hall (offset + k) (by omega) w hw'
      | ok pr2 =>
        obtain ⟨src2, nd3⟩ := pr2
        obtain ⟨hsl2, hdl2, hdp2, hlive2, hcopy2, hmove2⟩ := hokS src2 nd3 rfl
        have hsrc2live : ∀ k < v.size_, ∃ w, src2[0 + k]? = some (some w) := by
          intro k hk
          rw [Nat.zero_add]
          refine readAt_isSome_iff.mp ?_
          rw [hlive2 k, hlive1 k]
          exact readAt_isSome_iff.mpr (hw.live hk)
        obtain ⟨old', hold', holen, holdp⟩ := destroyN_spec v.size_ src2 0 hsrc2live
        have hnd3p : ∀ j, nd3[j]? =
            if j < offset then v.data_[j]?
            else if j = offset then some (some x)
            else if j < v.size_ + 1 then v.data_[j - 1]?
            else if j < nc then some none
            else none := by
          intro j
          rw [hdp2 j]
          by_cases h1 : offset + 1 ≤ j ∧ j < offset + 1 + (v.size_ - offset)
          · rw [if_pos h1, hsrc1eq (offset + j - (offset + 1)) (by omega)]
            have h5 : offset + j - (offset + 1) = j - 1 := by omega
            rw [h5, if_neg (show ¬(j < offset) from by omega),
              if_neg (show ¬(j = offset) from by omega),
              if_pos (show j < v.size_ + 1 from by omega)]
          · rw [if_neg h1, hdp1 j]
            by_cases h2 : 0 ≤ j ∧ j < 0 + offset
            · rw [if_pos h2, Nat.zero_add, Nat.sub_zero,
                if_pos (show j < offset from by omega)]
            · rw [if_neg h2, hnd1 j]
              by_cases h3 : offset = j
              · rw [if_pos h3, if_neg (show ¬(j < offset) from by omega),
                  if_pos (show j = offset from by omega)]
              · rw [if_neg h3, if_neg (show ¬(j < offset) from by omega),
                  if_neg (show ¬(j = offset) from by omega),
                  if_neg (show ¬(j < v.size_ + 1) from by omega)]
        refine ⟨.ok (⟨nd3, v.size_ + 1⟩, old', offset), ?_, ?_, ?_,
          fun _ _ _ e h => Except.noConfusion h,
          fun _ _ e h => Except.noConfusion h⟩
        · unfold Vector.EmplaceWithReallocAux
          simp only [harg, hcons, hrcP, hrcS, hold']
        · intro v'' o' p heq
          injection heq with heq
          injection heq with h1 heq2
          injection heq2 with h2 h3
          subst h1; subst h2; subst h3
          have hcap : nd3.length = nc := by
            rw [hdl2, hdl1, List.length_set, List.length_replicate]
          refine ⟨rfl, ?_, rfl, hcap, ?_, ?_, ?_, ?_⟩
          · refine Vector.WF_of_pointwise (by rw [hcap]; omega) ?_ ?_
            · intro i hi
              rw [hnd3p i]
              by_cases hc1 : i < offset
              · rw [if_pos hc1]
                exact hw.live (by omega)
              · by_cases hc2 : i = offset
                · rw [if_neg hc1, if_pos hc2]
                  exact ⟨x, rfl⟩
                · rw [if_neg hc1, if_neg hc2, if_pos (show i < v.size_ + 1 from hi)]
                  exact hw.live (by omega)
            · intro i h1 h2
              rw [hnd3p i, if_neg (show ¬(i < offset) from by omega),
                if_neg (show ¬(i = offset) from by omega),
                if_neg (show ¬(i < v.size_ + 1) from by omega),
                if_pos (show i < nc from by rw [hcap] at h2; exact h2)]
          · intro j
            have := holdp j
            by_cases h1 : 0 ≤ j ∧ j < 0 + v.size_
            · rw [if_pos h1] at this
              unfold readAt
              rw [this]
              rfl
            · rw [if_neg h1] at this
              rw [readAt_congr this]
              refine eq_none_of_isSome_eq_false ?_
              rw [hlive2 j, hlive1 j]
              have hx := hw.readAt_none (show v.size_ ≤ j from by omega)
              rw [hx]
              rfl
          · intro j hj
            refine readAt_congr ?_
            rw [hnd3p j, if_pos hj]
          · intro x' hx'
            injection hx' with hx'
            subst hx'
            unfold readAt
            rw [hnd3p offset, if_neg (show ¬(offset < offset) from by omega),
              if_pos rfl]
            rfl
          · intro j hj1 hj2
            refine readAt_congr ?_
            rw [hnd3p j, if_neg (show ¬(j < offset) from by omega),
              if_neg (show ¬(j = offset) from by omega), if_pos hj2]
        · intro v' tmp h; exact Except.noConfusion h

theorem Vector.EmplaceWithRealloc_spec (tr : Traits α) (v : Vector α)
    (offset : Nat) (mkArg : RawMemory α → Option α)
    (hw : v.WF) (hoff : offset ≤ v.size_) :
    ∃ r, v.EmplaceWithRealloc tr offset mkArg = some r ∧
      (∀ v'' old' p, r = .ok (v'', old', p) → p = offset ∧ v''.WF ∧
        v''.size_ = v.size_ + 1 ∧
        v''.Capacity = (if 0 < v.size_ then v.size_ * 2 else 1) ∧
        (∀ j, readAt old' j = none) ∧
        (∀ j < offset, readAt v''.data_ j = readAt v.data_ j) ∧
        (∀ x, mkArg v.data_ = some x → readAt v''.data_ offset = some x) ∧
        (∀ j, offset < j → j < v.size_ + 1 →
          readAt v''.data_ j = readAt v.data_ (j - 1))) ∧
      (∀ v' tmp, r = .error (v', tmp) → v'.size_ = v.size_ ∧
        v'.Capacity = v.Capacity ∧ v'.WF ∧
        ((tr.nothrowMove || !tr.copyConstructible) = false → v' = v)) ∧
      ((mkArg v.data_).isSome = true → tr.Coherent → tr.nothrowMove = true →
        ∀ e, r ≠ .error e) ∧
      ((mkArg v.data_).isSome = true →
        (∀ k < v.size_, ∀ w, v.data_[k]? = some (some w) →
          tr.copyOk w = true ∧ tr.moveCtorOk w = true) →
        ∀ e, r ≠ .error e) := by
  have hnc : v.size_ < (if 0 < v.size_ then v.size_ * 2 else 1) := by
    by_cases h0 : 0 < v.size_
    · rw [if_pos h0]; omega
    · rw [if_neg h0]; omega
  exact Vector.EmplaceWithReallocAux_spec tr v offset mkArg _ hw hoff hnc

theorem Vector.WF.weak {v : Vector α} (hw : v.WF) : v.WFweak := by
  refine ⟨hw.1, ?_⟩
  intro i hi
  exact ⟨fun h => (hw.2 i hi).mpr h, fun h => hw.readAt_none (by omega)⟩

theorem Vector.EmplaceWithoutRealloc_spec (tr : Traits α) (v : Vector α)
    (offset : Nat) (mkArg : RawMemory α → Option α)
    (hw : v.WF) (hoff : offset ≤ v.size_) (hcap : v.size_ < v.Capacity) :
    ∃ r, v.EmplaceWithoutRealloc tr offset mkArg = some r ∧
      (∀ v'' p, r = .ok (v'', p) → p = offset ∧ v''.WF ∧
        v''.size_ = v.size_ + 1 ∧ v''.Capacity = v.Capacity ∧
        (∀ j < offset, readAt v''.data_ j = readAt v.data_ j) ∧
        (∀ x, mkArg v.data_ = some x → readAt v''.data_ offset = some x) ∧
        (∀ j, offset < j → j < v.size_ + 1 →
          readAt v''.data_ j = readAt v.data_ (j - 1))) ∧
      (∀ v', r = .error v' → v'.size_ = v.size_ ∧ v'.Capacity = v.Capacity ∧
        v'.WFweak ∧ (∀ i < v.size_, (readAt v'.data_ i).isSome = true)) ∧
      ((mkArg v.data_).isSome = true →
        (∀ a, tr.moveCtorOk a = true) → (∀ a, tr.moveAsgOk a = true) →
        ∀ e, r ≠ .error e) := by
  have hfree : v.data_[v.size_]? = some none := hw.free (Nat.le_refl _) hcap
  have hlen : v.size_ < v.data_.length := hcap
  by_cases hoffeq : offset = v.size_
  · cases harg : mkArg v.data_ with
    | none =>
      refine ⟨.error v, ?_, ?_, ?_, ?_⟩
      · unfold Vector.EmplaceWithoutRealloc
        rw [if_pos hoffeq]
        simp only [harg]
      · intro a b h; exact Except.noConfusion h
      · intro v' heq
        injection heq with heq
        subst heq
        exact ⟨rfl, rfl, hw.weak, fun i hi => (hw.2 i (by omega)).mpr hi⟩
      · intro hs
        exact absurd hs (by simp)
    | some x =>
      have hconsx : constructAt v.data_ v.size_ x =
          some (v.data_.set v.size_ (some x)) :=
        constructAt_eq_some.mpr ⟨hfree, rfl⟩
      refine ⟨.ok (⟨v.data_.set v.size_ (some x), v.size_ + 1⟩, offset), ?_,
        ?_, ?_, fun _ _ _ e h => Except.noConfusion h⟩
      · unfold Vector.EmplaceWithoutRealloc
        rw [if_pos hoffeq]
        simp only [harg, hconsx]
      · intro v'' p heq
        injection heq with heq
        injection heq with h1 h2
        subst h1; subst h2
        refine ⟨rfl, ?_, rfl, ?_, ?_, ?_, ?_⟩
        · refine Vector.WF_of_pointwise (by rw [List.length_set]; exact hcap) ?_ ?_
          · intro i hi
            rw [getElem?_set_spec _ _ _ _ hcap]
            by_cases h1 : v.size_ = i
            · rw [if_pos h1]; exact ⟨x, rfl⟩
            · rw [if_neg h1]
              exact hw.live (by omega)
          · intro i h1 h2
            rw [getElem?_set_spec _ _ _ _ hcap, if_neg (by omega)]
            exact hw.free (by omega) (by rw [List.length_set] at h2; exact h2)
        · show (v.data_.set v.size_ (some x)).length = v.Capacity
          rw [List.length_set]; rfl
        · intro j hj
          refine readAt_congr ?_
          rw [getElem?_set_spec _ _ _ _ hcap, if_neg (by omega)]
        · intro x' hx'
          injection hx' with hx'
          subst hx'
          unfold readAt
          rw [hoffeq, getElem?_set_spec _ _ _ _ hcap, if_pos rfl]
          rfl
        · intro j hj1 hj2
          exfalso
          omega
      · intro v' h; exact Except.noConfusion h
  · have hsz1 : 0 < v.size_ := by omega
    cases harg : mkArg v.data_ with
    | none =>
      refine ⟨.error v, ?_, ?_, ?_, ?_⟩
      · unfold Vector.EmplaceWithoutRealloc
        rw [if_neg hoffeq]
        simp only [harg]
      · intro a b h; exact Except.noConfusion h
      · intro v' heq
        injection heq with heq
        subst heq
        exact ⟨rfl, rfl, hw.weak, fun i hi => (hw.2 i (by omega)).mpr hi⟩
      · intro hs
        exact absurd hs (by simp)
    | some temp =>
      obtain ⟨w, hwlast⟩ := hw.live (show v.size_ - 1 < v.size_ by omega)
      have hread : readAt v.data_ (v.size_ - 1) = some w :=
        readAt_eq_some_iff.mpr hwlast
      by_cases hmk : tr.moveCtorOk w = true
      · have hcons1 : constructAt v.data_ v.size_ w =
            some (v.data_.set v.size_ (some w)) :=
          constructAt_eq_some.mpr ⟨hfree, rfl⟩
        have hb1get : (v.data_.set v.size_ (some w))[v.size_ - 1]? =
            some (some w) := by
          rw [getElem?_set_spec _ _ _ _ hcap, if_neg (by omega)]
          exact hwlast
        have hasg1 : assignAt (v.data_.set v.size_ (some w)) (v.size_ - 1)
              (tr.moved w) =
            some ((v.data_.set v.size_ (some w)).set (v.size_ - 1)
              (some (tr.moved w))) :=
          assignAt_eq_some.mpr ⟨⟨w, hb1get⟩, rfl⟩
        have hb2len : ((v.data_.set v.size_ (some w)).set (v.size_ - 1)
            (some (tr.moved w))).length = v.data_.length := by
          rw [List.length_set, List.length_set]
        have hb2p : ∀ j, ((v.data_.set v.size_ (some w)).set (v.size_ - 1)
              (some (tr.moved w)))[j]? =
            if v.size_ - 1 = j then some (some (tr.moved w))
            else if v.size_ = j then some (some w)
            else v.data_[j]? := by
          intro j
          rw [getElem?_set_spec _ _ _ _ (by rw [List.length_set]; omega),
            getElem?_set_spec _ _ _ _ hcap]
        obtain ⟨rs, hrs, hoks, hers, hnes⟩ :=
          shiftUpOne_spec tr (v.size_ - 1 - offset)
            ((v.data_.set v.size_ (some w)).set (v.size_ - 1) (some (tr.moved w)))
            offset
            (by
              intro j hj1 hj2
              rw [hb2p j]
              by_cases h1 : v.size_ - 1 = j
              · rw [if_pos h1]; exact ⟨tr.moved w, rfl⟩
              · rw [if_neg h1, if_neg (by omega)]
                exact hw.live (by omega))
        cases rs with
        | error b3 =>
          obtain ⟨hb3len, hb3live⟩ := hers b3 rfl
          refine ⟨.error ⟨b3, v.size_⟩, ?_, ?_, ?_, ?_⟩
          · unfold Vector.EmplaceWithoutRealloc
            rw [if_neg hoffeq]
            simp only [harg, hread, hmk, if_true, hcons1, hasg1, hrs]
          · intro a b h; exact Except.noConfusion h
          · intro v' heq
            injection heq with heq
            subst heq
            have hlive : ∀ i ≤ v.size_, (readAt b3 i).isSome = true := by
              intro i hi
              rw [hb3live i]
              unfold readAt
              rw [hb2p i]
              by_cases h1 : v.size_ - 1 = i
              · rw [if_pos h1]; rfl
              · rw [if_neg h1]
                by_cases h2 : v.size_ = i
                · rw [if_pos h2]; rfl
                · rw [if_neg h2]
                  obtain ⟨w', hw'⟩ := hw.live (show i < v.size_ by omega)
                  rw [hw']
                  rfl
            refine ⟨rfl, ?_, ?_, ?_⟩
            · show b3.length = v.Capacity
              rw [hb3len, hb2len]; rfl
            · refine ⟨by show v.size_ ≤ b3.length; rw [hb3len, hb2len]; omega, ?_⟩
              intro i hi
              constructor
              · intro h1
                exact hlive i (Nat.le_of_lt h1)
              · intro h1
                have h1' : v.size_ + 1 ≤ i := h1
                refine eq_none_of_isSome_eq_false ?_
                rw [hb3live i]
                have : readAt ((v.data_.set v.size_ (some w)).set (v.size_ - 1)
                    (some (tr.moved w))) i = readAt v.data_ i := by
                  refine readAt_congr ?_
                  rw [hb2p i, if_neg (by omega), if_neg (by omega)]
                rw [this, hw.readAt_none (by omega)]
                rfl
            · intro i hi; exact hlive i (Nat.le_of_lt hi)
          · intro _ hctor hasgn e heq
            refine absurd rfl (hnes ?_ b3)
            intro j w' hj1 hj2 hw'
            exact hasgn w'
        | ok b3 =>
          obtain ⟨hb3len, hb3p⟩ := hoks b3 rfl
          have hb3lo : ∀ j < offset, b3[j]? = v.data_[j]? := by
            intro j hj
            rw [hb3p j, if_neg (by omega), if_neg (by omega), hb2p j,
              if_neg (by omega), if_neg (by omega)]
          have hb3mid : ∀ j, offset < j → j ≤ v.size_ - 1 →
              b3[j]? = v.data_[j - 1]? := by
            intro j hj1 hj2
            rw [hb3p j, if_neg (by omega), if_pos ⟨hj1, by omega⟩,
              hb2p (j - 1), if_neg (by omega), if_neg (by omega)]
          have hb3size : b3[v.size_]? = some (some w) := by
            rw [hb3p v.size_, if_neg (by omega), if_neg (by omega),
              hb2p v.size_, if_neg (by omega), if_pos rfl]
          have hb3hi : ∀ j, v.size_ < j → b3[j]? = v.data_[j]? := by
            intro j hj
            rw [hb3p j, if_neg (by omega), if_neg (by omega), hb2p j,
              if_neg (by omega), if_neg (by omega)]
          have hb3off : ∃ y, b3[offset]? = some (some y) := by
            by_cases hn : 0 < v.size_ - 1 - offset
            · rw [hb3p offset, if_pos ⟨rfl, hn⟩, hb2p offset,
                if_neg (by omega), if_neg (by omega)]
              obtain ⟨wo, hwo⟩ := hw.live (show offset < v.size_ by omega)
              rw [hwo]
              exact ⟨tr.moved wo, rfl⟩
            · rw [hb3p offset, if_neg (by omega), if_neg (by omega),
                hb2p offset, if_pos (by omega)]
              exact ⟨tr.moved w, rfl⟩
          have hlive3 : ∀ i ≤ v.size_, (readAt b3 i).isSome = true := by
            intro i hi
            unfold readAt
            by_cases h1 : i < offset
            · obtain ⟨w', hw'⟩ := hw.live (show i < v.size_ by omega)
              rw [hb3lo i h1, hw']
              rfl
            · by_cases h2 : i = offset
              · obtain ⟨y, hy⟩ := hb3off
                rw [h2, hy]
                rfl
              · by_cases h3 : i ≤ v.size_ - 1
                · obtain ⟨w', hw'⟩ :=
                    hw.live (show i - 1 < v.size_ by omega)
                  rw [hb3mid i (by omega) h3, hw']
                  rfl
                · have h4 : i = v.size_ := by omega
                  rw [h4, hb3size]
                  rfl
          have hfree3 : ∀ i, v.size_ + 1 ≤ i → readAt b3 i = none := by
            intro i hi
            rw [readAt_congr (hb3hi i (by omega))]
            exact hw.readAt_none (by omega)
          by_cases hasgok : tr.moveAsgOk temp = true
          · have hasg4 : assignAt b3 offset temp =
                some (b3.set offset (some temp)) := by
              obtain ⟨y, hy⟩ := hb3off
              exact assignAt_eq_some.mpr ⟨⟨y, hy⟩, rfl⟩
            have hofflen : offset < b3.length := by
              rw [hb3len, hb2len]
              omega
            refine ⟨.ok (⟨b3.set offset (some temp), v.size_ + 1⟩, offset), ?_,
              ?_, ?_, fun _ _ _ e h => Except.noConfusion h⟩
            · unfold Vector.EmplaceWithoutRealloc
              rw [if_neg hoffeq]
              simp only [harg, hread, hmk, if_true, hcons1, hasg1, hrs,
                hasgok, hasg4]
            · intro v'' p heq
              injection heq with heq
              injection heq with h1 h2
              subst h1; subst h2
              refine ⟨rfl, ?_, rfl, ?_, ?_, ?_, ?_⟩
              · refine Vector.WF_of_pointwise
                  (by rw [List.length_set, hb3len, hb2len]; omega) ?_ ?_
                · intro i hi
                  rw [getElem?_set_spec _ _ _ _ hofflen]
                  by_cases h1 : offset = i
                  · rw [if_pos h1]; exact ⟨temp, rfl⟩
                  · rw [if_neg h1]
                    exact readAt_isSome_iff.mp (hlive3 i (by omega))
                · intro i h1 h2
                  rw [getElem?_set_spec _ _ _ _ hofflen, if_neg (by omega),
                    hb3hi i (by omega)]
                  refine hw.free (by omega) ?_
                  rw [List.length_set, hb3len, hb2len] at h2
                  exact h2
              · show (b3.set offset (some temp)).length = v.Capacity
                rw [List.length_set, hb3len, hb2len]; rfl
              · intro j hj
                refine readAt_congr ?_
                rw [getElem?_set_spec _ _ _ _ hofflen, if_neg (by omega),
                  hb3lo j hj]
              · intro x' hx'
                injection hx' with hx'
                subst hx'
                unfold readAt
                rw [getElem?_set_spec _ _ _ _ hofflen, if_pos rfl]
                rfl
              · intro j hj1 hj2
                by_cases h3 : j ≤ v.size_ - 1
                · refine readAt_congr ?_
                  rw [getElem?_set_spec _ _ _ _ hofflen, if_neg (by omega),
                    hb3mid j hj1 h3]
                · have h4 : j = v.size_ := by omega
                  subst h4
                  unfold readAt
                  rw [getElem?_set_spec _ _ _ _ hofflen, if_neg (by omega),
                    hb3size, hwlast]
            · intro v' h; exact Except.noConfusion h
          · refine ⟨.error ⟨b3, v.size_⟩, ?_, ?_, ?_, ?_⟩
            · unfold Vector.EmplaceWithoutRealloc
              rw [if_neg hoffeq]
              simp only [harg, hread, hmk, if_true, hcons1, hasg1, hrs, hasgok,
                if_false, Bool.false_eq_true]
            · intro a b h; exact Except.noConfusion h
            · intro v' heq
              injection heq with heq
              subst heq
              refine ⟨rfl, ?_, ?_, ?_⟩
              · show b3.length = v.Capacity
                rw [hb3len, hb2len]; rfl
              · refine ⟨by show v.size_ ≤ b3.length; rw [hb3len, hb2len]; omega, ?_⟩
                intro i hi
                exact ⟨fun h1 => hlive3 i (Nat.le_of_lt h1), fun h1 => hfree3 i h1⟩
              · intro i hi; exact hlive3 i (Nat.le_of_lt hi)
            · intro _ hctor hasgn e heq
              exact absurd (hasgn temp) hasgok
      · refine ⟨.error v, ?_, ?_, ?_, ?_⟩
        · unfold Vector.EmplaceWithoutRealloc
          rw [if_neg hoffeq]
          simp only [harg, hread, hmk, if_false, Bool.false_eq_true]
        · intro a b h; exact Except.noConfusion h
        · intro v' heq
          injection heq with heq
          subst heq
          exact ⟨rfl, rfl, hw.weak, fun i hi => (hw.2 i (by omega)).mpr hi⟩
        · intro _ hctor hasgn e heq
          exact absurd (hctor w) hmk

theorem Vector.Emplace_spec (tr : Traits α) (v : Vector α) (offset : Nat)
    (mkArg : RawMemory α → Option α) (hw : v.WF) (hoff : offset ≤ v.size_) :
    ∃ r, v.Emplace tr offset mkArg = some r ∧
      (∀ v'' p, r = .ok (v'', p) → p = offset ∧ v''.WF ∧
        v''.size_ = v.size_ + 1 ∧
        (∀ j < offset, readAt v''.data_ j = readAt v.data_ j) ∧
        (∀ x, mkArg v.data_ = some x → readAt v''.data_ offset = some x) ∧
        (∀ j, offset < j → j < v.size_ + 1 →
          readAt v''.data_ j = readAt v.data_ (j - 1)) ∧
        v''.Capacity = (if v.size_ = v.Capacity
          then (if 0 < v.size_ then v.size_ * 2 else 1) else v.Capacity)) ∧
      (∀ v', r = .error v' → v'.size_ = v.size_ ∧ v'.Capacity = v.Capacity ∧
        v'.WFweak) ∧
      ((mkArg v.data_).isSome = true → tr.Tame → ∀ e, r ≠ .error e) := by
  by_cases hc : v.size_ = v.Capacity
  · obtain ⟨rr, hrr, hokc, herc, hcohc, hallc⟩ :=
      Vector.EmplaceWithRealloc_spec tr v offset mkArg hw hoff
    cases rr with
    | ok pr =>
      obtain ⟨v'', old', p⟩ := pr
      obtain ⟨hp, hwf, hsz, hcap, hold, hlo, hmid, hhi⟩ := hokc v'' old' p rfl
      refine ⟨.ok (v'', p), ?_, ?_, ?_, fun _ _ e h => Except.noConfusion h⟩
      · unfold Vector.Emplace
        rw [if_pos hc, hrr]
      · intro a b heq
        injection heq with heq
        injection heq with h1 h2
        subst h1; subst h2
        exact ⟨hp, hwf, hsz, hlo, hmid, hhi, by rw [if_pos hc]; exact hcap⟩
      · intro a h; exact Except.noConfusion h
    | error pr =>
      obtain ⟨v', tmp⟩ := pr
      obtain ⟨hsz, hcap, hwf, hcopy⟩ := herc v' tmp rfl
      refine ⟨.error v', ?_, ?_, ?_, ?_⟩
      · unfold Vector.Emplace
        rw [if_pos hc, hrr]
      · intro a b h; exact Except.noConfusion h
      · intro a heq
        injection heq with heq
        subst heq
        exact ⟨hsz, hcap, hwf.weak⟩
      · intro hs ht e heq
        refine absurd rfl (hallc hs ?_ (v', tmp))
        intro k hk w hw'
        exact ⟨ht.1 w, ht.2.1 w⟩
  · have hlt : v.size_ < v.Capacity := by
      have := hw.1
      have h2 : v.size_ ≤ v.Capacity := this
      omega
    obtain ⟨rr, hrr, hokc, herc, hnerr⟩ :=
      Vector.EmplaceWithoutRealloc_spec tr v offset mkArg hw hoff hlt
    refine ⟨rr, ?_, ?_, ?_, ?_⟩
    · unfold Vector.Emplace
      rw [if_neg hc]
      exact hrr
    · intro v'' p heq
      obtain ⟨hp, hwf, hsz, hcap0, hlo, hmid, hhi⟩ := hokc v'' p heq
      exact ⟨hp, hwf, hsz, hlo, hmid, hhi, by rw [if_neg hc]; exact hcap0⟩
    · intro v' heq
      obtain ⟨hsz, hcap, hww, hlv⟩ := herc v' heq
      exact ⟨hsz, hcap, hww⟩
    · intro hs ht
      exact hnerr hs ht.2.1 ht.2.2.2.1

theorem Vector.Erase_spec (tr : Traits α) (v : Vector α) (offset : Nat)
    (hw : v.WF) (hoff : offset < v.size_) :
    ∃ r, v.Erase tr offset = some r ∧
      (∀ v' p, r = .ok (v', p) → p = offset ∧ v'.WF ∧
        v'.size_ = v.size_ - 1 ∧ v'.Capacity = v.Capacity ∧
        (∀ j < offset, readAt v'.data_ j = readAt v.data_ j) ∧
        (∀ j, offset ≤ j → j < v.size_ - 1 →
          readAt v'.data_ j = readAt v.data_ (j + 1))) ∧
      (∀ v', r = .error v' → v'.size_ = v.size_ ∧ v'.Capacity = v.Capacity ∧
        v'.WF) ∧
      ((∀ a, tr.moveAsgOk a = true) → ∀ e, r ≠ .error e) := by
  have hlen : v.size_ ≤ v.data_.length := hw.1
  obtain ⟨rs, hrs, hoks, hers, hnes⟩ :=
    shiftDownOne_spec tr (v.size_ - 1 - offset) v.data_ offset
      (by
        intro j hj1 hj2
        exact hw.live (by omega))
  cases rs with
  | error b' =>
    obtain ⟨hbl, hblive⟩ := hers b' rfl
    refine ⟨.error ⟨b', v.size_⟩, ?_, ?_, ?_, ?_⟩
    · unfold Vector.Erase
      rw [hrs]
    · intro a b h; exact Except.noConfusion h
    · intro v' heq
      injection heq with heq
      subst heq
      refine ⟨rfl, ?_, ?_⟩
      · show b'.length = v.Capacity
        rw [hbl]; rfl
      · exact Vector.WF_of_isSome_eq hw hbl hblive
    · intro hall e heq
      refine absurd rfl (hnes ?_ b')
      intro j w hj1 hj2 hw'
      exact hall w
  | ok b' =>
    obtain ⟨hbl, hbp⟩ := hoks b' rfl
    have hlast : ∃ y, b'[v.size_ - 1]? = some (some y) := by
      rw [hbp (v.size_ - 1)]
      by_cases hn : 0 < v.size_ - 1 - offset
      · rw [if_neg (by omega), if_pos (by omega)]
        obtain ⟨w, hw'⟩ := hw.live (show v.size_ - 1 < v.size_ by omega)
        rw [hw']
        exact ⟨tr.moved w, rfl⟩
      · rw [if_neg (by omega), if_neg (by omega)]
        exact hw.live (by omega)
    have hdes : destroyAt b' (v.size_ - 1) =
        some (b'.set (v.size_ - 1) none) := by
      obtain ⟨y, hy⟩ := hlast
      exact destroyAt_eq_some.mpr ⟨⟨y, hy⟩, rfl⟩
    have hs1len : v.size_ - 1 < b'.length := by rw [hbl]; omega
    refine ⟨.ok (⟨b'.set (v.size_ - 1) none, v.size_ - 1⟩, offset), ?_,
      ?_, ?_, fun _ e h => Except.noConfusion h⟩
    · unfold Vector.Erase
      rw [hrs]
      simp only [hdes]
    · intro v' p heq
      injection heq with heq
      injection heq with h1 h2
      subst h1; subst h2
      refine ⟨rfl, ?_, rfl, ?_, ?_, ?_⟩
      · refine Vector.WF_of_pointwise
          (by rw [List.length_set, hbl]; omega) ?_ ?_
        · intro i hi
          rw [getElem?_set_spec _ _ _ _ hs1len, if_neg (by omega), hbp i]
          by_cases h1 : offset ≤ i ∧ i < offset + (v.size_ - 1 - offset)
          · rw [if_pos h1]
            exact hw.live (by omega)
          · rw [if_neg h1, if_neg (by omega)]
            exact hw.live (by omega)
        · intro i h1 h2
          rw [getElem?_set_spec _ _ _ _ hs1len]
          by_cases h3 : v.size_ - 1 = i
          · rw [if_pos h3]
          · rw [if_neg h3, hbp i, if_neg (by omega), if_neg (by omega)]
            refine hw.free (by omega) ?_
            rw [List.length_set, hbl] at h2
            exact h2
      · show (b'.set (v.size_ - 1) none).length = v.Capacity
        rw [List.length_set, hbl]; rfl
      · intro j hj
        refine readAt_congr ?_
        rw [getElem?_set_spec _ _ _ _ hs1len, if_neg (by omega), hbp j,
          if_neg (by omega), if_neg (by omega)]
      · intro j hj1 hj2
        refine readAt_congr ?_
        rw [getElem?_set_spec _ _ _ _ hs1len, if_neg (by omega), hbp j,
          if_pos ⟨hj1, by omega⟩]
    · intro a h; exact Except.noConfusion h

theorem Vector.CopyAssign_spec (tr : Traits α) (lhs rhs : Vector α)
    (hwl : lhs.WF) (hwr : rhs.WF) :
    ∃ r, Vector.CopyAssign tr false lhs rhs = some r ∧
      (∀ out, r = .ok out → out.size_ = rhs.size_ ∧ out.WF ∧
        (∀ i < rhs.size_, readAt out.data_ i = readAt rhs.data_ i) ∧
        out.Capacity =
          (if rhs.size_ > lhs.Capacity then rhs.size_ else lhs.Capacity)) ∧
      (∀ out, r = .error out → out.WF ∧ out.size_ = lhs.size_ ∧
        out.Capacity = lhs.Capacity ∧
        (rhs.size_ > lhs.Capacity → out = lhs)) ∧
      ((∀ a, tr.copyOk a = true) → (∀ a, tr.copyAsgOk a = true) →
        ∀ e, r ≠ .error e) := by
  have hllen : lhs.size_ ≤ lhs.data_.length := hwl.1
  by_cases hbig : rhs.size_ > lhs.Capacity
  · have hbig' : lhs.Capacity < rhs.size_ := hbig
    obtain ⟨rc, hrc, hokc, hnec⟩ :=
      uninitCopyN_spec tr rhs.size_ rhs.data_ 0 (List.replicate rhs.size_ none) 0
        (by intro k hk; rw [Nat.zero_add]; exact hwr.live hk)
        (by intro k hk; rw [Nat.zero_add]; exact getElem?_replicate_none hk)
    cases rc with
    | ok nb' =>
      obtain ⟨hnl, hnp⟩ := hokc nb' rfl
      obtain ⟨old', hold', -, -⟩ := destroyN_spec lhs.size_ lhs.data_ 0
        (by intro k hk; rw [Nat.zero_add]; exact hwl.live hk)
      refine ⟨.ok ⟨nb', rhs.size_⟩, ?_, ?_, ?_,
        fun _ _ e h => Except.noConfusion h⟩
      · unfold Vector.CopyAssign
        rw [if_neg (by simp), if_pos hbig, hrc]
        simp only [hold']
      · intro out heq
        injection heq with heq
        subst heq
        have hcap : nb'.length = rhs.size_ := by
          rw [hnl, List.length_replicate]
        refine ⟨rfl, ?_, ?_, ?_⟩
        · refine Vector.WF_of_pointwise (by omega) ?_ ?_
          · intro i hi
            rw [hnp i, if_pos (by omega), Nat.zero_add, Nat.sub_zero]
            exact hwr.live hi
          · intro i h1 h2
            exfalso
            rw [hcap] at h2
            omega
        · intro i hi
          refine readAt_congr ?_
          rw [hnp i, if_pos (by omega), Nat.zero_add, Nat.sub_zero]
        · show nb'.length = _
          rw [if_pos hbig, hcap]
      · intro out h; exact Except.noConfusion h
    | error u =>
      refine ⟨.error lhs, ?_, ?_, ?_, ?_⟩
      · unfold Vector.CopyAssign
        rw [if_neg (by simp), if_pos hbig, hrc]
      · intro out h; exact Except.noConfusion h
      · intro out heq
        injection heq with heq
        subst heq
        exact ⟨hwl, rfl, rfl, fun _ => rfl⟩
      · intro hco hca e heq
        refine absurd rfl (hnec ?_ u)
        intro k hk w hw'
        exact hco w
  · have hle : rhs.size_ ≤ lhs.data_.length := by
      have : rhs.size_ ≤ lhs.Capacity := by omega
      exact this
    obtain ⟨rc, hrc, hokc, herc, hnec⟩ :=
      copyAssignN_spec tr (min rhs.size_ lhs.size_) rhs.data_ 0 lhs.data_ 0
        (by intro k hk; rw [Nat.zero_add]; exact hwr.live (by omega))
        (by intro k hk; rw [Nat.zero_add]; exact hwl.live (by omega))
    cases rc with
    | error b' =>
      obtain ⟨hbl, hblive⟩ := herc b' rfl
      refine ⟨.error ⟨b', lhs.size_⟩, ?_, ?_, ?_, ?_⟩
      · unfold Vector.CopyAssign
        rw [if_neg (by simp), if_neg (by omega), hrc]
      · intro out h; exact Except.noConfusion h
      · intro out heq
        injection heq with heq
        subst heq
        refine ⟨Vector.WF_of_isSome_eq hwl hbl hblive, rfl, ?_, ?_⟩
        · show b'.length = lhs.Capacity
          rw [hbl]; rfl
        · intro h; exact absurd h (by omega)
      · intro hco hca e heq
        refine absurd rfl (hnec ?_ b')
        intro k hk w hw'
        exact hca w
    | ok b' =>
      obtain ⟨hbl, hbp⟩ := hokc b' rfl
      by_cases hshr : rhs.size_ < lhs.size_
      · obtain ⟨b'', hb'', hb2l, hb2p⟩ :=
          destroyN_spec (lhs.size_ - rhs.size_) b' rhs.size_
            (by
              intro k hk
              rw [hbp (rhs.size_ + k), if_neg (by omega)]
              exact hwl.live (by omega))
        refine ⟨.ok ⟨b'', rhs.size_⟩, ?_, ?_, ?_,
          fun _ _ e h => Except.noConfusion h⟩
        · unfold Vector.CopyAssign
          rw [if_neg (by simp), if_neg (by omega), hrc]
          simp only [if_pos hshr, hb'']
        · intro out heq
          injection heq with heq
          subst heq
          refine ⟨rfl, ?_, ?_, ?_⟩
          · refine Vector.WF_of_pointwise (by rw [hb2l, hbl]; omega) ?_ ?_
            · intro i hi
              rw [hb2p i, if_neg (by omega), hbp i, if_pos (by omega),
                Nat.zero_add, Nat.sub_zero]
              exact hwr.live hi
            · intro i h1 h2
              rw [hb2p i]
              by_cases h3 : rhs.size_ ≤ i ∧ i < rhs.size_ + (lhs.size_ - rhs.size_)
              · rw [if_pos h3]
              · rw [if_neg h3, hbp i, if_neg (by omega)]
                refine hwl.free (by omega) ?_
                rw [hb2l, hbl] at h2
                exact h2
          · intro i hi
            refine readAt_congr ?_
            rw [hb2p i, if_neg (by omega), hbp i, if_pos (by omega),
              Nat.zero_add, Nat.sub_zero]
          · show b''.length = _
            rw [if_neg hbig, hb2l, hbl]; rfl
        · intro out h; exact Except.noConfusion h
      · have hmin : min rhs.size_ lhs.size_ = lhs.size_ := by omega
        obtain ⟨rc2, hrc2, hokc2, hnec2⟩ :=
          uninitCopyN_spec tr (rhs.size_ - lhs.size_) rhs.data_ lhs.size_ b'
            lhs.size_
            (by intro k hk; exact hwr.live (by omega))
            (by
              intro k hk
              rw [hbp (lhs.size_ + k), if_neg (by omega)]
              exact hwl.free (by omega) (by omega))
        cases rc2 with
        | error u =>
          refine ⟨.error ⟨b', lhs.size_⟩, ?_, ?_, ?_, ?_⟩
          · unfold Vector.CopyAssign
            rw [if_neg (by simp), if_neg (by omega), hrc]
            simp only [if_neg hshr, hrc2]
          · intro out h; exact Except.noConfusion h
          · intro out heq
            injection heq with heq
            subst heq
            refine ⟨?_, rfl, ?_, ?_⟩
            · refine Vector.WF_of_pointwise (by rw [hbl]; omega) ?_ ?_
              · intro i hi
                rw [hbp i, if_pos (by omega), Nat.zero_add, Nat.sub_zero]
                exact hwr.live (by omega)
              · intro i h1 h2
                rw [hbp i, if_neg (by omega)]
                exact hwl.free (by omega) (by rw [hbl] at h2; exact h2)
            · show b'.length = lhs.Capacity
              rw [hbl]; rfl
            · intro h; exact absurd h (by omega)
          · intro hco hca e heq
            refine absurd rfl (hnec2 ?_ u)
            intro k hk w hw'
            exact hco w
        | ok b'' =>
          obtain ⟨hb2l, hb2p⟩ := hokc2 b'' rfl
          refine ⟨.ok ⟨b'', rhs.size_⟩, ?_, ?_, ?_,
            fun _ _ e h => Except.noConfusion h⟩
          · unfold Vector.CopyAssign
            rw [if_neg (by simp), if_neg (by omega), hrc]
            simp only [if_neg hshr, hrc2]
          · intro out heq
            injection heq with heq
            subst heq
            have hval : ∀ i < rhs.size_, b''[i]? = rhs.data_[i]? := by
              intro i hi
              rw [hb2p i]
              by_cases h1 : lhs.size_ ≤ i ∧ i < lhs.size_ + (rhs.size_ - lhs.size_)
              · rw [if_pos h1]
                congr 1
                omega
              · rw [if_neg h1, hbp i, if_pos (by omega), Nat.zero_add,
                  Nat.sub_zero]
            refine ⟨rfl, ?_, ?_, ?_⟩
            · refine Vector.WF_of_pointwise (by rw [hb2l, hbl]; omega) ?_ ?_
              · intro i hi
                rw [hval i hi]
                exact hwr.live hi
              · intro i h1 h2
                rw [hb2p i, if_neg (by omega), hbp i, if_neg (by omega)]
                exact hwl.free (by omega) (by rw [hb2l, hbl] at h2; exact h2)
            · intro i hi
              exact readAt_congr (hval i hi)
            · show b''.length = _
              rw [if_neg hbig, hb2l, hbl]; rfl
          · intro out h; exact Except.noConfusion h

theorem Vector.Resize_spec (tr : Traits α) (v : Vector α) (n : Nat)
    (hw : v.WF) :
    ∃ r, v.Resize tr n = some r ∧
      (∀ v', r = .ok v' → v'.WF ∧ v'.size_ = n ∧
        (∀ i, i < n → i < v.size_ → readAt v'.data_ i = readAt v.data_ i)) ∧
      (∀ v', r = .error v' → v'.WF ∧ v'.size_ = v.size_) ∧
      (tr.Tame → ∀ e, r ≠ .error e) := by
  by_cases hle : n ≤ v.size_
  · obtain ⟨b', hb', hbl, hbp⟩ := destroyN_spec (v.size_ - n) v.data_ n
      (by intro k hk; exact hw.live (by omega))
    refine ⟨.ok ⟨b', n⟩, ?_, ?_, fun _ h => Except.noConfusion h,
      fun _ e h => Except.noConfusion h⟩
    · unfold Vector.Resize
      rw [if_pos hle]
      simp only [hb']
    · intro v' heq
      injection heq with heq
      subst heq
      have hlen := hw.1
      refine ⟨?_, rfl, ?_⟩
      · refine Vector.WF_of_pointwise (by rw [hbl]; omega) ?_ ?_
        · intro i hi
          rw [hbp i, if_neg (by omega)]
          exact hw.live (by omega)
        · intro i h1 h2
          rw [hbp i]
          by_cases h3 : n ≤ i ∧ i < n + (v.size_ - n)
          · rw [if_pos h3]
          · rw [if_neg h3]
            exact hw.free (by omega) (by rw [hbl] at h2; exact h2)
      · intro i hi1 hi2
        refine readAt_congr ?_
        rw [hbp i, if_neg (by omega)]
  · obtain ⟨rr, hrr, hokr, herr, hcohr, hallr⟩ := Vector.Reserve_spec tr v n hw
    cases rr with
    | error v' =>
      obtain ⟨hsz, hcap, hwf, -⟩ := herr v' rfl
      refine ⟨.error v', ?_, ?_, ?_, ?_⟩
      · unfold Vector.Resize
        rw [if_neg hle, hrr]
      · intro a h; exact Except.noConfusion h
      · intro a heq
        injection heq with heq
        subst heq
        exact ⟨hwf, hsz⟩
      · intro ht e heq
        refine absurd rfl (hallr ?_ v')
        intro k hk w hw'
        exact ⟨ht.1 w, ht.2.1 w⟩
    | ok v' =>
      obtain ⟨hwf, hsz, hcont, hcap⟩ := hokr v' rfl
      have hncap : n ≤ v'.data_.length := by
        have h1 : v'.Capacity = max v.Capacity n := hcap
        show n ≤ v'.Capacity
        omega
      obtain ⟨rc, hrc, hokc, hnec⟩ :=
        uninitValueConstructN_spec tr (n - v.size_) v'.data_ v.size_
          (by
            intro k hk
            exact hwf.free (show v'.size_ ≤ v.size_ + k from by omega)
              (show v.size_ + k < v'.data_.length from by omega))
      cases rc with
      | ok b'' =>
        obtain ⟨hb2l, hb2p⟩ := hokc b'' rfl
        refine ⟨.ok ⟨b'', n⟩, ?_, ?_, fun _ h => Except.noConfusion h,
          fun _ e h => Except.noConfusion h⟩
        · unfold Vector.Resize
          rw [if_neg hle, hrr]
          simp only [hrc]
        · intro a heq
          injection heq with heq
          subst heq
          refine ⟨?_, rfl, ?_⟩
          · refine Vector.WF_of_pointwise (by rw [hb2l]; omega) ?_ ?_
            · intro i hi
              rw [hb2p i]
              by_cases h1 : v.size_ ≤ i ∧ i < v.size_ + (n - v.size_)
              · rw [if_pos h1]
                exact ⟨tr.defaultVal, rfl⟩
              · rw [if_neg h1]
                exact hwf.live (by omega)
            · intro i h1 h2
              rw [hb2p i, if_neg (by omega)]
              exact hwf.free (by omega) (by rw [hb2l] at h2; exact h2)
          · intro i hi1 hi2
            have h3 : readAt b'' i = readAt v'.data_ i := by
              refine readAt_congr ?_
              rw [hb2p i, if_neg (by omega)]
            rw [h3]
            exact hcont i hi2
      | error u =>
        refine ⟨.error v', ?_, ?_, ?_, ?_⟩
        · unfold Vector.Resize
          rw [if_neg hle, hrr]
          simp only [hrc]
        · intro a h; exact Except.noConfusion h
        · intro a heq
          injection heq with heq
          subst heq
          exact ⟨hwf, hsz⟩
        · intro ht e heq
          exact absurd rfl (hnec ht.2.2.2.2 u)

/-! ### The abstract contents `toList` -/

theorem Vector.toList_length [Inhabited α] (v : Vector α) :
    v.toList.length = v.size_ := by
  unfold Vector.toList
  rw [List.length_map, List.length_range]

theorem Vector.toList_getElem? [Inhabited α] (v : Vector α) {i : Nat}
    (hi : i < v.size_) :
    v.toList[i]? = some ((readAt v.data_ i).getD default) := by
  unfold Vector.toList
  rw [List.getElem?_map, List.getElem?_range hi]
  rfl

theorem Vector.toList_getElem?_none [Inhabited α] (v : Vector α) {i : Nat}
    (hi : v.size_ ≤ i) : v.toList[i]? = none := by
  unfold Vector.toList
  exact List.getElem?_eq_none (by rw [List.length_map, List.length_range]; omega)

theorem Vector.toList_eq_of [Inhabited α] {v v' : Vector α}
    (hs : v'.size_ = v.size_)
    (h : ∀ i < v.size_, readAt v'.data_ i = readAt v.data_ i) :
    v'.toList = v.toList := by
  refine List.ext_getElem? ?_
  intro n
  by_cases hn : n < v.size_
  · rw [Vector.toList_getElem? v' (by omega), Vector.toList_getElem? v hn,
      h n hn]
  · rw [Vector.toList_getElem?_none v' (by omega),
      Vector.toList_getElem?_none v (by omega)]

theorem Vector.toList_insert_form [Inhabited α] {v v' : Vector α} {p : Nat}
    {x : α} (hp : p ≤ v.size_) (hs : v'.size_ = v.size_ + 1)
    (h1 : ∀ j < p, readAt v'.data_ j = readAt v.data_ j)
    (h2 : readAt v'.data_ p = some x)
    (h3 : ∀ j, p < j → j < v.size_ + 1 →
      readAt v'.data_ j = readAt v.data_ (j - 1)) :
    v'.toList = v.toList.take p ++ x :: v.toList.drop p := by
  refine List.ext_getElem? ?_
  intro n
  have hlt : (v.toList.take p).length = p := by
    rw [List.length_take, Vector.toList_length]
    omega
  rw [List.getElem?_append, hlt]
  by_cases hn1 : n < p
  · rw [if_pos hn1, List.getElem?_take, if_pos hn1,
      Vector.toList_getElem? v' (by omega), Vector.toList_getElem? v (by omega),
      h1 n hn1]
  · rw [if_neg hn1, List.getElem?_cons]
    by_cases hn2 : n = p
    · subst hn2
      rw [if_pos (by omega), Vector.toList_getElem? v' (by omega), h2]
      rfl
    · rw [if_neg (by omega), List.getElem?_drop]
      have he : p + (n - p - 1) = n - 1 := by omega
      rw [he]
      by_cases hn3 : n < v.size_ + 1
      · rw [Vector.toList_getElem? v' (by omega),
          Vector.toList_getElem? v (by omega), h3 n (by omega) hn3]
      · rw [Vector.toList_getElem?_none v' (by omega),
          Vector.toList_getElem?_none v (by omega)]

theorem Vector.toList_erase_form [Inhabited α] {v v' : Vector α} {p : Nat}
    (hp : p < v.size_) (hs : v'.size_ = v.size_ - 1)
    (h1 : ∀ j < p, readAt v'.data_ j = readAt v.data_ j)
    (h2 : ∀ j, p ≤ j → j < v.size_ - 1 →
      readAt v'.data_ j = readAt v.data_ (j + 1)) :
    v'.toList = v.toList.take p ++ v.toList.drop (p + 1) := by
  refine List.ext_getElem? ?_
  intro n
  have hlt : (v.toList.take p).length = p := by
    rw [List.length_take, Vector.toList_length]
    omega
  rw [List.getElem?_append, hlt]
  by_cases hn1 : n < p
  · rw [if_pos hn1, List.getElem?_take, if_pos hn1,
      Vector.toList_getElem? v' (by omega), Vector.toList_getElem? v (by omega),
      h1 n hn1]
  · rw [if_neg hn1, List.getElem?_drop]
    have he : p + 1 + (n - p) = n + 1 := by omega
    rw [he]
    by_cases hn2 : n < v.size_ - 1
    · rw [Vector.toList_getElem? v' (by omega),
        Vector.toList_getElem? v (by omega), h2 n (by omega) hn2]
    · rw [Vector.toList_getElem?_none v' (by omega),
        Vector.toList_getElem?_none v (by omega)]

theorem Vector.empty_WF : (Vector.empty : Vector α).WF := by
  refine ⟨Nat.le_refl 0, ?_⟩
  intro i hi
  simp [Vector.empty] at hi

/-! ### Remaining operations -/

theorem Vector.PopBack_spec (v : Vector α) (hw : v.WF) (hpos : 0 < v.size_) :
    ∃ v', v.PopBack = some v' ∧ v'.WF ∧ v'.size_ = v.size_ - 1 := by
  obtain ⟨w, hwl⟩ := hw.live (show v.size_ - 1 < v.size_ by omega)
  have hdes : destroyAt v.data_ (v.size_ - 1) =
      some (v.data_.set (v.size_ - 1) none) :=
    destroyAt_eq_some.mpr ⟨⟨w, hwl⟩, rfl⟩
  have hlen : v.size_ - 1 < v.data_.length := by
    have := hw.1
    omega
  refine ⟨⟨v.data_.set (v.size_ - 1) none, v.size_ - 1⟩, ?_, ?_, rfl⟩
  · unfold Vector.PopBack
    rw [hdes]
    rfl
  · refine Vector.WF_of_pointwise (by rw [List.length_set]; omega) ?_ ?_
    · intro i hi
      rw [getElem?_set_spec _ _ _ _ hlen, if_neg (by omega)]
      exact hw.live (by omega)
    · intro i h1 h2
      rw [getElem?_set_spec _ _ _ _ hlen]
      by_cases h3 : v.size_ - 1 = i
      · rw [if_pos h3]
      · rw [if_neg h3]
        refine hw.free (by omega) ?_
        rw [List.length_set] at h2
        exact h2

theorem Vector.CopyCtor_spec [Inhabited α] (tr : Traits α) (src : Vector α)
    (hw : src.WF) :
    ∃ r, Vector.CopyCtor tr src = some r ∧
      (∀ v', r = .ok v' → v'.WF ∧ v'.size_ = src.size_ ∧
        v'.Capacity = src.size_ ∧ v'.toList = src.toList) ∧
      ((∀ a, tr.copyOk a = true) → ∀ u, r ≠ .error u) := by
  obtain ⟨rc, hrc, hokc, hnec⟩ :=
    uninitCopyN_spec tr src.size_ src.data_ 0 (List.replicate src.size_ none) 0
      (by intro k hk; rw [Nat.zero_add]; exact hw.live hk)
      (by intro k hk; rw [Nat.zero_add]; exact getElem?_replicate_none hk)
  cases rc with
  | ok nb' =>
    obtain ⟨hnl, hnp⟩ := hokc nb' rfl
    have hcap : nb'.length = src.size_ := by rw [hnl, List.length_replicate]
    have hval : ∀ i < src.size_, nb'[i]? = src.data_[i]? := by
      intro i hi
      rw [hnp i, if_pos (by omega), Nat.zero_add, Nat.sub_zero]
    refine ⟨.ok ⟨nb', src.size_⟩, ?_, ?_, fun _ u h => Except.noConfusion h⟩
    · unfold Vector.CopyCtor
      rw [hrc]
    · intro v' heq
      injection heq with heq
      subst heq
      refine ⟨?_, rfl, hcap, ?_⟩
      · refine Vector.WF_of_pointwise (by omega) ?_ ?_
        · intro i hi
          rw [hval i hi]
          exact hw.live hi
        · intro i h1 h2
          exfalso
          rw [hcap] at h2
          omega
      · exact Vector.toList_eq_of rfl (fun i hi => readAt_congr (hval i hi))
  | error u =>
    refine ⟨.error (), ?_, ?_, ?_⟩
    · unfold Vector.CopyCtor
      rw [hrc]
    · intro v' h; exact Except.noConfusion h
    · intro hco e heq
      refine absurd rfl (hnec ?_ u)
      intro k hk w hw'
      exact hco w

theorem Vector.SizedCtor_spec (tr : Traits α) (n : Nat) :
    ∃ r, Vector.SizedCtor tr n = some r ∧
      (∀ v', r = .ok v' → v'.WF ∧ v'.size_ = n ∧ v'.Capacity = n ∧
        ∀ i < n, readAt v'.data_ i = some tr.defaultVal) ∧
      (tr.defaultOk = true → ∀ u, r ≠ .error u) := by
  obtain ⟨rc, hrc, hokc, hnec⟩ :=
    uninitValueConstructN_spec tr n (List.replicate n (none : Option α)) 0
      (by intro k hk; rw [Nat.zero_add]; exact getElem?_replicate_none hk)
  cases rc with
  | ok b' =>
    obtain ⟨hbl, hbp⟩ := hokc b' rfl
    have hcap : b'.length = n := by rw [hbl, List.length_replicate]
    refine ⟨.ok ⟨b', n⟩, ?_, ?_, fun _ u h => Except.noConfusion h⟩
    · unfold Vector.SizedCtor
      rw [hrc]
    · intro v' heq
      injection heq with heq
      subst heq
      refine ⟨?_, rfl, hcap, ?_⟩
      · refine Vector.WF_of_pointwise (by omega) ?_ ?_
        · intro i hi
          rw [hbp i, if_pos (by omega)]
          exact ⟨tr.defaultVal, rfl⟩
        · intro i h1 h2
          exfalso
          rw [hcap] at h2
          omega
      · intro i hi
        unfold readAt
        rw [hbp i, if_pos (by omega)]
        rfl
  | error u =>
    refine ⟨.error (), ?_, ?_, ?_⟩
    · unfold Vector.SizedCtor
      rw [hrc]
    · intro v' h; exact Except.noConfusion h
    · intro hd e heq
      exact absurd rfl (hnec hd u)

theorem newCap_eq_max (s : Nat) : (if 0 < s then s * 2 else 1) = max 1 (2 * s) := by
  by_cases h : 0 < s
  · rw [if_pos h]; omega
  · rw [if_neg h]; omega

theorem Vector.PushBack_spec [Inhabited α] (tr : Traits α) (v : Vector α)
    (x : α) (hw : v.WF) (ht : tr.Tame) :
    ∃ v', v.PushBack tr x = some (.ok (v', v.size_)) ∧ v'.WF ∧
      v'.size_ = v.size_ + 1 ∧ v'.toList = v.toList ++ [x] ∧
      v'.Capacity =
        (if v.size_ = v.Capacity then max 1 (2 * v.size_) else v.Capacity) := by
  obtain ⟨r, hr, hok, herr, hne⟩ :=
    Vector.Emplace_spec tr v v.size_ (mkCopyArg tr x) hw (Nat.le_refl _)
  have hmk : mkCopyArg tr x v.data_ = some x := by
    unfold mkCopyArg
    rw [if_pos (ht.1 x)]
  cases r with
  | error e =>
    exact absurd rfl (hne (by rw [hmk]; rfl) ht e)
  | ok pr =>
    obtain ⟨v', p⟩ := pr
    obtain ⟨hp, hwf, hsz, hlo, hmid, hhi, hcap⟩ := hok v' p rfl
    subst hp
    refine ⟨v', hr, hwf, hsz, ?_, ?_⟩
    · have := @Vector.toList_insert_form α _ v v' v.size_ x (Nat.le_refl _)
        hsz hlo (hmid x hmk) hhi
      rw [this, ← Vector.toList_length v, List.take_length, List.drop_length]
    · rw [hcap, newCap_eq_max]

/-! ### Repeated appends from empty, and the capacity sequence -/

/-- Push the values of a list one by one (`PushBack` in a loop). -/
def appendAll (tr : Traits α) : Vector α → List α → Option (Except (Vector α) (Vector α))
  | v, [] => some (.ok v)
  | v, x :: xs =>
    match v.PushBack tr x with
    | none => none
    | some (.error e) => some (.error e)
    | some (.ok (v', _)) => appendAll tr v' xs

/-- The capacity after `k` appends starting from a default-constructed vector,
following the code's growth rule `size_ > 0 ? size_ * 2 : 1` applied exactly
when `size_ == Capacity()`. -/
def capSeq : Nat → Nat
  | 0 => 0
  | k + 1 => if k = capSeq k then (if 0 < k then k * 2 else 1) else capSeq k

theorem capSeq_succ (k : Nat) :
    capSeq (k + 1) = if k = capSeq k then max 1 (2 * k) else capSeq k := by
  rw [capSeq, newCap_eq_max]

theorem capSeq_pow :
    ∀ k, 0 < k → ∃ j, capSeq k = 2 ^ j ∧ k ≤ capSeq k ∧ capSeq k < 2 * k := by
  intro k
  induction k with
  | zero => intro h; omega
  | succ k ih =>
    intro _
    by_cases hk : 0 < k
    · obtain ⟨j, hj, hk1, hk2⟩ := ih hk
      by_cases he : k = capSeq k
      · refine ⟨j + 1, ?_, ?_, ?_⟩
        · rw [capSeq, if_pos he, if_pos hk]
          have hkj : k = 2 ^ j := by rw [he, hj]
          rw [hkj, pow_succ]
        · rw [capSeq, if_pos he, if_pos hk]
          omega
        · rw [capSeq, if_pos he, if_pos hk]
          omega
      · refine ⟨j, ?_, ?_, ?_⟩
        · rw [capSeq, if_neg he, hj]
        · rw [capSeq, if_neg he]
          have : k ≠ capSeq k := he
          rw [hj] at this ⊢
          omega
        · rw [capSeq, if_neg he, hj]
          rw [hj] at hk2
          omega
    · have hk0 : k = 0 := by omega
      subst hk0
      exact ⟨0, by decide, by decide, by decide⟩

theorem appendAll_spec [Inhabited α] (tr : Traits α) (ht : tr.Tame) :
    ∀ (vals : List α) (v : Vector α), v.WF → v.Capacity = capSeq v.size_ →
      ∃ v', appendAll tr v vals = some (.ok v') ∧ v'.WF ∧
        v'.size_ = v.size_ + vals.length ∧
        v'.Capacity = capSeq v'.size_ ∧
        v'.toList = v.toList ++ vals := by
  intro vals
  induction vals with
  | nil =>
    intro v hw hcap
    refine ⟨v, rfl, hw, by simp, ?_, by simp⟩
    exact hcap
  | cons x xs ih =>
    intro v hw hcap
    obtain ⟨v1, hpb, hwf1, hsz1, htl1, hcap1⟩ := Vector.PushBack_spec tr v x hw ht
    have hcap1' : v1.Capacity = capSeq v1.size_ := by
      rw [hsz1, capSeq_succ, ← hcap]
      exact hcap1
    obtain ⟨v', hap, hwf', hsz', hcap', htl'⟩ := ih v1 hwf1 hcap1'
    refine ⟨v', ?_, hwf', ?_, hcap', ?_⟩
    · rw [appendAll]
      simp only [hpb]
      exact hap
    · rw [hsz', hsz1, List.length_cons]
      omega
    · rw [htl', htl1, List.append_assoc, List.singleton_append]

/-! ### Observable behaviour of the relocation branch selection -/

theorem CopyOrMoveData_copy_branch (tr : Traits α)
    (hbr : (tr.nothrowMove || !tr.copyConstructible) = false)
    (src : RawMemory α) (s k : Nat) (dst : RawMemory α) (d : Nat) :
    (∀ s' d', RawMemory.CopyOrMoveData tr src s k dst d = some (.ok (s', d')) →
      s' = src) ∧
    (∀ s' d', RawMemory.CopyOrMoveData tr src s k dst d = some (.error (s', d')) →
      s' = src) := by
  have hunf : RawMemory.CopyOrMoveData tr src s k dst d =
      match uninitCopyN tr src s k dst d with
      | none => none
      | some (.ok dst') => some (.ok (src, dst'))
      | some (.error _) => some (.error (src, dst)) := by
    unfold RawMemory.CopyOrMoveData
    rw [if_neg (by rw [hbr]; simp)]
  constructor
  · intro s' d' h
    rw [hunf] at h
    cases hx : uninitCopyN tr src s k dst d with
    | none => rw [hx] at h; exact Option.noConfusion h
    | some rr =>
      rw [hx] at h
      cases rr with
      | ok dd =>
        injection h with h
        injection h with h
        injection h with h1 h2
        exact h1.symm
      | error u =>
        injection h with h
        exact Except.noConfusion h
  · intro s' d' h
    rw [hunf] at h
    cases hx : uninitCopyN tr src s k dst d with
    | none => rw [hx] at h; exact Option.noConfusion h
    | some rr =>
      rw [hx] at h
      cases rr with
      | ok dd =>
        injection h with h
        exact Except.noConfusion h
      | error u =>
        injection h with h
        injection h with h
        injection h with h1 h2
        exact h1.symm

theorem CopyOrMoveData_move_branch (tr : Traits α)
    (hbr : (tr.nothrowMove || !tr.copyConstructible) = true)
    (src : RawMemory α) (s k : Nat) (dst : RawMemory α) (d : Nat)
    (hsrc : ∀ m < k, ∃ w, src[s + m]? = some (some w))
    (hdst : ∀ m < k, dst[d + m]? = some none) :
    ∀ s' d', RawMemory.CopyOrMoveData tr src s k dst d = some (.ok (s', d')) →
      ∀ j, s ≤ j → j < s + k →
        s'[j]? = (src[j]?).map (Option.map tr.moved) := by
  intro s' d' h j hj1 hj2
  obtain ⟨r, hr, hokc, herc, hcoh, hall⟩ :=
    RawMemory.CopyOrMoveData_spec tr src s k dst d hsrc hdst
  rw [hr] at h
  injection h with h
  obtain ⟨-, -, -, -, -, hmove⟩ := hokc s' d' h
  rw [hmove hbr j, if_pos ⟨hj1, hj2⟩]

/-! ### Concrete element types and vectors used to exercise the claims -/

/-- A type whose element operations all succeed (nothrow-movable, copyable). -/
def exTame : Traits Nat :=
  ⟨true, true, fun _ => true, fun _ => true, fun _ => true, fun _ => true,
    fun _ => 0, true, 0⟩

theorem exTame_tame : exTame.Tame :=
  ⟨fun _ => rfl, fun _ => rfl, fun _ => rfl, fun _ => rfl, rfl⟩

/-- A copyable type whose move construction may throw and whose copy
construction throws on the value `2` (relocation copy-constructs). -/
def exCopyThrow : Traits Nat :=
  ⟨false, true, fun a => a != 2, fun _ => true, fun _ => true, fun _ => true,
    fun _ => 0, true, 0⟩

/-- A move-only type whose move construction throws on the value `2`
(relocation move-constructs and can fail mid-way); moved-from elements hold
the value `0`. -/
def exMoveOnlyThrow : Traits Nat :=
  ⟨false, false, fun _ => true, fun a => a != 2, fun _ => true, fun _ => true,
    fun _ => 0, true, 0⟩

/-- A nothrow-movable type whose move assignment throws on the value `1`;
moved-from elements hold the value `0`. -/
def exBadMoveAsg : Traits Nat :=
  ⟨true, true, fun _ => true, fun _ => true, fun _ => true, fun a => a != 1,
    fun _ => 0, true, 0⟩

/-- The vector `[1, 2]` with capacity 2 (full). -/
def exVec12 : Vector Nat := ⟨[some 1, some 2], 2⟩

/-- The vector `[1, 2]` with capacity 3 (one free slot). -/
def exVec12c3 : Vector Nat := ⟨[some 1, some 2, none], 2⟩

/-- The vector `[1, 2, 3]` with capacity 3. -/
def exVec123 : Vector Nat := ⟨[some 1, some 2, some 3], 3⟩

/-! ### Claim C1 -/

/-- The conclusions of claim C1 about `Vector::Reserve`: no undefined
behaviour; on an element-ctor throw the vector is exactly unchanged and
every slot of the discarded temporary buffer is dead (nothing lost or
duplicated); on success the contents are preserved and the capacity is the
requested one; `CopyOrMoveData` copy-constructs (source never perturbed)
exactly when the type is copy-constructible and not nothrow-movable, and
move-constructs (sources left moved-from) otherwise. -/
def ReserveClaimProp {α : Type} [Inhabited α] (tr : Traits α) (v : Vector α)
    (n : Nat) : Prop :=
  (v.Reserve tr n).isSome = true ∧
  (∀ v', v.Reserve tr n = some (.error v') → v' = v) ∧
  (∀ v', v.Reserve tr n = some (.ok v') →
    v'.toList = v.toList ∧ v'.size_ = v.size_ ∧ v'.Capacity = n) ∧
  (∀ v' tmp, v.ReserveFull tr n = some (.error (v', tmp)) →
    ∀ j, readAt tmp j = none) ∧
  ((tr.nothrowMove || !tr.copyConstructible) = false →
    ∀ (src : RawMemory α) (s k : Nat) (dst : RawMemory α) (d : Nat) s' d',
      (RawMemory.CopyOrMoveData tr src s k dst d = some (.ok (s', d')) →
        s' = src) ∧
      (RawMemory.CopyOrMoveData tr src s k dst d = some (.error (s', d')) →
        s' = src)) ∧
  ((tr.nothrowMove || !tr.copyConstructible) = true →
    ∀ (src : RawMemory α) (s k : Nat) (dst : RawMemory α) (d : Nat),
      (∀ m < k, ∃ w, src[s + m]? = some (some w)) →
      (∀ m < k, dst[d + m]? = some none) →
      ∀ s' d', RawMemory.CopyOrMoveData tr src s k dst d = some (.ok (s', d')) →
        ∀ j, s ≤ j → j < s + k →
          s'[j]? = (src[j]?).map (Option.map tr.moved))

/-- Claim C1 (corrected): if an element copy/move constructor throws while
`Reserve` relocates into a newly allocated larger buffer, the vector's
length and accessible elements are unchanged and nothing is lost or
duplicated — provided the element type is copy-constructible and not
nothrow-move-constructible (so relocation copy-constructs), or its move
construction cannot throw.  Relocation move-constructs exactly when the type
is nothrow-move-constructible or not copy-constructible, and copy-constructs
otherwise.  (Unconditionally, the claim is false: see the counterexample,
where a throwing move of a non-copyable type leaves elements moved-from.) -/
theorem reserve_relocation_claim {α : Type} [Inhabited α] (tr : Traits α)
    (v : Vector α) (n : Nat) (hw : v.WF) (hgrow : v.Capacity < n)
    (hsafe : tr.copyConstructible = true ∧ tr.nothrowMove = false ∨
      tr.Coherent ∧ tr.nothrowMove = true) :
    ReserveClaimProp tr v n := by
  obtain ⟨r, hr, hok, herr, hcoh, hall⟩ := Vector.Reserve_spec tr v n hw
  obtain ⟨rf, hrf, hokf, herf, hcohf, hallf⟩ :=
    Vector.ReserveFull_spec tr v n hw hgrow
  refine ⟨by rw [hr]; rfl, ?_, ?_, ?_, ?_, ?_⟩
  · intro v' h
    rw [hr] at h
    cases r with
    | ok o =>
      injection h with h
      exact Except.noConfusion h
    | error e =>
      injection h with h
      injection h with h
      subst h
      obtain ⟨-, -, -, hcopy⟩ := herr e rfl
      cases hsafe with
      | inl hcpy =>
        refine hcopy ?_
        rw [hcpy.1, hcpy.2]
        rfl
      | inr hmv =>
        exact absurd rfl (hcoh hmv.1 hmv.2 e)
  · intro v' h
    rw [hr] at h
    cases r with
    | error e =>
      injection h with h
      exact Except.noConfusion h
    | ok o =>
      injection h with h
      injection h with h
      subst h
      obtain ⟨hwf, hsz, hcont, hcap⟩ := hok o rfl
      refine ⟨Vector.toList_eq_of hsz hcont, hsz, ?_⟩
      rw [hcap]
      omega
  · intro v' tmp h
    rw [hrf] at h
    cases rf with
    | ok o =>
      injection h with h
      exact Except.noConfusion h
    | error pr =>
      obtain ⟨v0, t0⟩ := pr
      injection h with h
      injection h with h
      injection h with h1 h2
      obtain ⟨-, -, -, htmp, -⟩ := herf v0 t0 rfl
      intro j
      rw [← h2]
      exact htmp j
  · intro hbr src s k dst d s' d'
    obtain ⟨h1, h2⟩ := CopyOrMoveData_copy_branch tr hbr src s k dst d
    exact ⟨h1 s' d', h2 s' d'⟩
  · intro hbr src s k dst d hsrc hdst s' d' h
    exact CopyOrMoveData_move_branch tr hbr src s k dst d hsrc hdst s' d' h

/-- Claim C1, counterexample to the unconditional statement: for a
non-copy-constructible element type whose move construction throws on the
value `2`, `Reserve` on the vector `[1, 2]` throws during relocation and
leaves the vector's first element moved-from (`[0, 2]`): the accessible
elements are NOT unchanged, and the element `1` is lost. -/
theorem reserve_relocation_counterexample :
    Vector.WF exVec12 ∧
    exVec12.Capacity < 3 ∧
    errVecR (Vector.Reserve exMoveOnlyThrow exVec12 3) =
      some ⟨[some 0, some 2], 2⟩ ∧
    Vector.toList (⟨[some 0, some 2], 2⟩ : Vector Nat) ≠ exVec12.toList ∧
    (⟨[some 0, some 2], 2⟩ : Vector Nat).size_ = exVec12.size_ := by
  decide

theorem reserve_relocation_claim_witness :
    Vector.WF exVec12 ∧ exVec12.Capacity < 3 ∧
    ReserveClaimProp exCopyThrow exVec12 3 :=
  ⟨by decide, by decide,
    reserve_relocation_claim exCopyThrow exVec12 3 (by decide) (by decide)
      (Or.inl ⟨rfl, rfl⟩)⟩

/-! ### Claim C2 -/

/-- The conclusions of claim C2 about `Vector::EmplaceWithRealloc`: no
undefined behaviour (every rollback destroy hits a live slot, so the
rollbacks destroy only what had been constructed); if either relocation
throws, the container (size, contents and owned buffer) is exactly as
before the call — the originals are destroyed and the buffers swapped only
after both relocations succeed, on which path the result holds the new
element at its final offset, the other elements in order, and every slot of
the discarded old buffer dead. -/
def EmplaceReallocClaimProp {α : Type} [Inhabited α] (tr : Traits α)
    (v : Vector α) (offset : Nat) (mkArg : RawMemory α → Option α)
    (x : α) : Prop :=
  (v.EmplaceWithRealloc tr offset mkArg).isSome = true ∧
  (∀ v' tmp, v.EmplaceWithRealloc tr offset mkArg = some (.error (v', tmp)) →
    v' = v) ∧
  (∀ v'' old' p, v.EmplaceWithRealloc tr offset mkArg = some (.ok (v'', old', p)) →
    p = offset ∧ v''.WF ∧ v''.size_ = v.size_ + 1 ∧
    v''.Capacity = max 1 (2 * v.size_) ∧
    v''.toList = v.toList.take offset ++ x :: v.toList.drop offset ∧
    (∀ j, readAt old' j = none))

/-- Claim C2 (corrected): during an insertion that requires reallocation
(`size_ == Capacity()`), the new element is constructed at its final offset
in the new buffer, and if the prefix or the suffix relocation throws, the
rollback destroys only slots that were constructed (no double destroy, no
destroy of raw memory), the original buffer's live elements remain intact
and the container's size and contents are unchanged; the original elements
are destroyed and the buffers swapped only after both relocations succeed —
provided the element type is copy-constructible and not
nothrow-move-constructible (so relocation copy-constructs), or its move
construction cannot throw.  (Unconditionally the claim is false: see the
counterexample, where a throwing move of a move-only type changes the
contents.) -/
theorem emplace_realloc_rollback_claim {α : Type} [Inhabited α]
    (tr : Traits α) (v : Vector α) (offset : Nat)
    (mkArg : RawMemory α → Option α) (x : α) (hw : v.WF)
    (hreal : v.size_ = v.Capacity) (hoff : offset ≤ v.size_)
    (harg : mkArg v.data_ = some x)
    (hsafe : tr.copyConstructible = true ∧ tr.nothrowMove = false ∨
      tr.Coherent ∧ tr.nothrowMove = true) :
    EmplaceReallocClaimProp tr v offset mkArg x := by
  obtain ⟨r, hr, hok, herr, hcoh, hall⟩ :=
    Vector.EmplaceWithRealloc_spec tr v offset mkArg hw hoff
  refine ⟨by rw [hr]; rfl, ?_, ?_⟩
  · intro v' tmp h
    rw [hr] at h
    cases r with
    | ok o =>
      injection h with h
      exact Except.noConfusion h
    | error pr =>
      obtain ⟨v0, t0⟩ := pr
      injection h with h
      injection h with h
      injection h with h1 h2
      rw [← h1]
      obtain ⟨-, -, -, hcopy⟩ := herr v0 t0 rfl
      cases hsafe with
      | inl hcpy =>
        refine hcopy ?_
        rw [hcpy.1, hcpy.2]
        rfl
      | inr hmv =>
        refine absurd rfl (hcoh ?_ hmv.1 hmv.2 (v0, t0))
        rw [harg]
        rfl
  · intro v'' old' p h
    rw [hr] at h
    cases r with
    | error pr =>
      injection h with h
      exact Except.noConfusion h
    | ok pr =>
      obtain ⟨v0, o0, p0⟩ := pr
      injection h with h
      injection h with h
      injection h with h1 h
      injection h with h2 h3
      rw [← h1, ← h2, ← h3]
      obtain ⟨hp, hwf, hsz, hcap, hold, hlo, hmid, hhi⟩ := hok v0 o0 p0 rfl
      refine ⟨hp, hwf, hsz, ?_, ?_, hold⟩
      · rw [hcap, newCap_eq_max]
      · exact @Vector.toList_insert_form α _ v v0 offset x hoff hsz hlo
          (hmid x harg) hhi

/-- Claim C2, counterexample to the unconditional statement: for a move-only
element type whose move construction throws on the value `2`, inserting `9`
at the end of the full vector `[1, 2]` constructs the new element in the new
buffer and then throws while relocating the prefix; the exception leaves the
vector's first element moved-from (`[0, 2]`): the contents are NOT
unchanged. -/
theorem emplace_realloc_rollback_counterexample :
    Vector.WF exVec12 ∧
    exVec12.size_ = exVec12.Capacity ∧
    (errVecFull (Vector.EmplaceWithRealloc exMoveOnlyThrow exVec12 2
        (mkMoveArg exMoveOnlyThrow 9))).map Prod.fst =
      some ⟨[some 0, some 2], 2⟩ ∧
    Vector.toList (⟨[some 0, some 2], 2⟩ : Vector Nat) ≠ exVec12.toList := by
  decide

theorem emplace_realloc_rollback_claim_witness :
    Vector.WF exVec12 ∧ exVec12.size_ = exVec12.Capacity ∧ 1 ≤ exVec12.size_ ∧
    mkCopyArg exCopyThrow 9 exVec12.data_ = some 9 ∧
    EmplaceReallocClaimProp exCopyThrow exVec12 1 (mkCopyArg exCopyThrow 9) 9 :=
  ⟨by decide, by decide, by decide, by decide,
    emplace_realloc_rollback_claim exCopyThrow exVec12 1
      (mkCopyArg exCopyThrow 9) 9 (by decide) (by decide) (by decide)
      (by decide) (Or.inl ⟨rfl, rfl⟩)⟩

/-! ### Claim C3 -/

/-- The invariant holds in every outcome (`none` = undefined behaviour is
ruled out). -/
def OpWF {α : Type} : Option (Except (Vector α) (Vector α)) → Prop
  | some (.ok v) => v.WF
  | some (.error v) => v.WF
  | none => False

/-- For an insertion: full invariant on success, the weakened invariant
(slot `size_` unconstrained) after a throw. -/
def OpWFe {α : Type} : Option (Except (Vector α) (Vector α × Nat)) → Prop
  | some (.ok (v, _)) => v.WF
  | some (.error v) => v.WFweak
  | none => False

/-- For an erasure: full invariant in every outcome. -/
def OpWFer {α : Type} : Option (Except (Vector α) (Vector α × Nat)) → Prop
  | some (.ok (v, _)) => v.WF
  | some (.error v) => v.WF
  | none => False

/-- For a constructor: the invariant on the object produced (a throw
produces no object). -/
def OpWFu {α : Type} : Option (Except Unit (Vector α)) → Prop
  | some (.ok v) => v.WF
  | some (.error _) => True
  | none => False

/-- The conclusions of claim C3 at one instance of each public operation:
no undefined behaviour (no slot counted live left unconstructed, no double
destroy), and the invariant `size_ ≤ capacity` with slots `[0, size_)` live
and slots `[size_, capacity)` uninitialized restored in every outcome — with
the proviso that a same-capacity insertion that throws mid-shift guarantees
only the weakened invariant, in which the slot at index `size_` may be left
holding a live element. -/
def InvariantPreservationAt {α : Type} (tr : Traits α) (v rhs : Vector α)
    (n offset : Nat) (mkArg : RawMemory α → Option α) : Prop :=
  OpWF (v.Reserve tr n) ∧
  OpWF (v.Resize tr n) ∧
  (offset ≤ v.size_ → OpWFe (v.Emplace tr offset mkArg)) ∧
  (offset < v.size_ → OpWFer (v.Erase tr offset)) ∧
  (0 < v.size_ → ∃ v', v.PopBack = some v' ∧ v'.WF) ∧
  OpWF (Vector.CopyAssign tr false v rhs) ∧
  OpWFu (Vector.CopyCtor tr rhs) ∧
  OpWFu (Vector.SizedCtor tr n) ∧
  v.MoveCtor.1.WF ∧ v.MoveCtor.2.WF ∧
  (Vector.MoveAssign v rhs).1.WF ∧ (Vector.MoveAssign v rhs).2.WF ∧
  (Vector.SwapOp v rhs).1.WF ∧ (Vector.SwapOp v rhs).2.WF

/-- Claim C3 (corrected): every public operation, applied to well-formed
vectors, is free of undefined behaviour and restores the invariant
`size_ ≤ capacity` plus "exactly the slots `[0, size_)` are live" in every
outcome, including throws — except that a same-capacity insertion whose
shifting move-assignments throw restores only the weakened invariant: the
slot at index `size_` may be left holding a live element the length does not
count (see the counterexample, which exhibits a reachable state violating
the unweakened invariant). -/
theorem invariant_preservation_claim {α : Type} [Inhabited α] (tr : Traits α)
    (v rhs : Vector α) (n offset : Nat) (mkArg : RawMemory α → Option α)
    (hw : v.WF) (hwr : rhs.WF) :
    InvariantPreservationAt tr v rhs n offset mkArg := by
  refine ⟨?_, ?_, ?_, ?_, ?_, ?_, ?_, ?_, hw, Vector.empty_WF, hwr,
    Vector.empty_WF, hwr, hw⟩
  · obtain ⟨r, hr, hok, herr, -, -⟩ := Vector.Reserve_spec tr v n hw
    rw [hr]
    cases r with
    | ok o => exact (hok o rfl).1
    | error e => exact (herr e rfl).2.2.1
  · obtain ⟨r, hr, hok, herr, -⟩ := Vector.Resize_spec tr v n hw
    rw [hr]
    cases r with
    | ok o => exact (hok o rfl).1
    | error e => exact (herr e rfl).1
  · intro hoff
    obtain ⟨r, hr, hok, herr, -⟩ := Vector.Emplace_spec tr v offset mkArg hw hoff
    rw [hr]
    cases r with
    | ok pr =>
      obtain ⟨o, p⟩ := pr
      exact (hok o p rfl).2.1
    | error e => exact (herr e rfl).2.2
  · intro hoff
    obtain ⟨r, hr, hok, herr, -⟩ := Vector.Erase_spec tr v offset hw hoff
    rw [hr]
    cases r with
    | ok pr =>
      obtain ⟨o, p⟩ := pr
      exact (hok o p rfl).2.1
    | error e => exact (herr e rfl).2.2
  · intro hpos
    obtain ⟨v', h1, h2, -⟩ := Vector.PopBack_spec v hw hpos
    exact ⟨v', h1, h2⟩
  · obtain ⟨r, hr, hok, herr, -⟩ := Vector.CopyAssign_spec tr v rhs hw hwr
    rw [hr]
    cases r with
    | ok o => exact (hok o rfl).2.1
    | error e => exact (herr e rfl).1
  · obtain ⟨r, hr, hok, -⟩ := Vector.CopyCtor_spec tr rhs hwr
    rw [hr]
    cases r with
    | ok o => exact (hok o rfl).1
    | error u => exact trivial
  · obtain ⟨r, hr, hok, -⟩ := Vector.SizedCtor_spec tr n
    rw [hr]
    cases r with
    | ok o => exact (hok o rfl).1
    | error u => exact trivial

/-- Claim C3, counterexample to the unamended statement: for a
nothrow-movable element type whose move assignment throws on the value `1`,
inserting at position 0 of the vector `[1, 2]` (capacity 3, no reallocation)
first move-constructs the last element into slot 2 and then throws while
shifting; the exception leaves the state `data = [1, 0, 2]`, `size_ = 2`,
in which slot 2 holds a live element beyond `size_` — the invariant "slots
`[size_, capacity)` are uninitialized" is violated, and that element is
never destroyed. -/
theorem invariant_preservation_counterexample :
    Vector.WF exVec12c3 ∧
    errVec (Vector.Emplace exBadMoveAsg exVec12c3 0 (mkCopyArg exBadMoveAsg 9)) =
      some ⟨[some 1, some 0, some 2], 2⟩ ∧
    ¬ Vector.WF (⟨[some 1, some 0, some 2], 2⟩ : Vector Nat) := by
  decide

theorem invariant_preservation_claim_witness :
    Vector.WF exVec12 ∧ Vector.WF exVec12c3 ∧
    InvariantPreservationAt exTame exVec12 exVec12c3 5 0 (mkCopyArg exTame 9) :=
  ⟨by decide, by decide,
    invariant_preservation_claim exTame exVec12 exVec12c3 5 0
      (mkCopyArg exTame 9) (by decide) (by decide)⟩

/-! ### Claim C4 -/

/-- The conclusions of claim C4: appending the values of `vals` one by one
to a default-constructed vector succeeds, yields size `vals.length`,
contents `vals` and capacity `capSeq vals.length`; the capacity sequence is
a power of two in `[k, 2k)` for every `k ≥ 1` (so it runs 1, 2, 4, 8, …) and
obeys the recurrence "realloc to `max 1 (2·k)` exactly when `k` equals the
current capacity"; and every single append grows the capacity to
`max 1 (2·size)` exactly when `size = capacity`, leaving it unchanged
otherwise. -/
def GrowthLawAt {α : Type} [Inhabited α] (tr : Traits α) (vals : List α) : Prop :=
  (∃ v', appendAll tr Vector.empty vals = some (.ok v') ∧ v'.WF ∧
    v'.size_ = vals.length ∧ v'.Capacity = capSeq vals.length ∧
    v'.toList = vals) ∧
  (∀ k, 0 < k → ∃ j, capSeq k = 2 ^ j ∧ k ≤ capSeq k ∧ capSeq k < 2 * k) ∧
  (∀ k, capSeq (k + 1) = if k = capSeq k then max 1 (2 * k) else capSeq k) ∧
  (∀ (v v' : Vector α) (x : α) (p : Nat), v.WF →
    v.PushBack tr x = some (.ok (v', p)) →
    v'.size_ = v.size_ + 1 ∧
    v'.Capacity = (if v.size_ = v.Capacity then max 1 (2 * v.size_) else v.Capacity))

/-- Claim C4 (confirmed): for every sequence of appends starting from a
default-constructed vector of an element type whose operations do not throw,
reallocation happens exactly when the length would exceed the capacity, the
new capacity is `max 1 (2·length)`, and the capacity follows the doubling
sequence 1, 2, 4, 8, … (always the power of two in `[length, 2·length)`). -/
theorem growth_law_claim {α : Type} [Inhabited α] (tr : Traits α)
    (ht : tr.Tame) (vals : List α) : GrowthLawAt tr vals := by
  refine ⟨?_, capSeq_pow, capSeq_succ, ?_⟩
  · obtain ⟨v', h1, h2, h3, h4, h5⟩ :=
      appendAll_spec tr ht vals Vector.empty Vector.empty_WF rfl
    have h3' : v'.size_ = vals.length := by
      have h0 : (Vector.empty : Vector α).size_ = 0 := rfl
      omega
    refine ⟨v', h1, h2, h3', ?_, ?_⟩
    · rw [h4, h3']
    · rw [h5]
      rfl
  · intro v v' x p hwv hpb
    obtain ⟨v'', hpb', hwf, hsz, htl, hcap⟩ := Vector.PushBack_spec tr v x hwv ht
    rw [hpb'] at hpb
    injection hpb with hpb
    injection hpb with hpb
    injection hpb with hpb1 hpb2
    rw [← hpb1]
    exact ⟨hsz, hcap⟩

theorem growth_law_claim_witness :
    exTame.Tame ∧ GrowthLawAt exTame [7, 8, 9] :=
  ⟨exTame_tame, growth_law_claim exTame exTame_tame [7, 8, 9]⟩

/-! ### Claim C5 -/

/-- The conclusions of claim C5: inserting `x` at position `p` returns the
offset `p` (the iterator to the new element), a well-formed vector one
longer, whose contents are the old contents with `x` inserted at `p` (all
other elements in their old relative order), and whose element at `p` is
`x`. -/
def InsertionAt {α : Type} [Inhabited α] (tr : Traits α) (v : Vector α)
    (p : Nat) (x : α) : Prop :=
  ∃ v', v.Insert tr p x = some (.ok (v', p)) ∧ v'.WF ∧
    v'.size_ = v.size_ + 1 ∧
    v'.toList = v.toList.take p ++ x :: v.toList.drop p ∧
    v'.toList[p]? = some x

/-- Claim C5 (confirmed): for every well-formed vector of length `n`, every
position `p ≤ n` and every value, insertion (with or without reallocation —
both paths of `Emplace` are covered by the dispatch on
`size_ == Capacity()`) produces a vector of length `n + 1` with the value at
position `p`, all other elements in their old relative order, and returns
the position of the newly inserted element. -/
theorem insertion_correctness_claim {α : Type} [Inhabited α] (tr : Traits α)
    (v : Vector α) (p : Nat) (x : α) (ht : tr.Tame) (hw : v.WF)
    (hp : p ≤ v.size_) : InsertionAt tr v p x := by
  obtain ⟨r, hr, hok, herr, hne⟩ :=
    Vector.Emplace_spec tr v p (mkCopyArg tr x) hw hp
  have hmk : mkCopyArg tr x v.data_ = some x := by
    unfold mkCopyArg
    rw [if_pos (ht.1 x)]
  cases r with
  | error e => exact absurd rfl (hne (by rw [hmk]; rfl) ht e)
  | ok pr =>
    obtain ⟨v', p0⟩ := pr
    obtain ⟨hp0, hwf, hsz, hlo, hmid, hhi, hcap⟩ := hok v' p0 rfl
    rw [hp0] at hr
    have h2 := hmid x hmk
    refine ⟨v', hr, hwf, hsz, ?_, ?_⟩
    · exact @Vector.toList_insert_form α _ v v' p x hp hsz hlo h2 hhi
    · rw [Vector.toList_getElem? v' (by omega), h2]
      rfl

theorem insertion_correctness_claim_witness :
    exTame.Tame ∧ Vector.WF exVec12c3 ∧ 1 ≤ exVec12c3.size_ ∧
    InsertionAt exTame exVec12c3 1 9 :=
  ⟨exTame_tame, by decide, by decide,
    insertion_correctness_claim exTame exVec12c3 1 9 exTame_tame (by decide)
      (by decide)⟩

/-! ### Claim C6 -/

/-- The conclusions of claim C6: erasing position `p` returns the offset `p`
(now referring to the following element, or the end when the erased element
was last), a well-formed vector one shorter whose contents are the old
contents with the element at `p` removed — the element formerly at `p + 1`
is at `p` and all other relative order is preserved. -/
def ErasureAt {α : Type} [Inhabited α] (tr : Traits α) (v : Vector α)
    (p : Nat) : Prop :=
  ∃ v', v.Erase tr p = some (.ok (v', p)) ∧ v'.WF ∧
    v'.size_ = v.size_ - 1 ∧
    v'.toList = v.toList.take p ++ v.toList.drop (p + 1)

/-- Claim C6 (confirmed): for every well-formed vector of length `n ≥ 1` and
every valid position `p < n` of an element type whose move assignments do
not throw, `Erase` produces a vector of length `n - 1` in which the element
formerly at `p + 1` is at `p` and all other relative order is preserved, and
returns the erase position (which is the end marker exactly when the erased
element was last). -/
theorem erasure_correctness_claim {α : Type} [Inhabited α] (tr : Traits α)
    (v : Vector α) (p : Nat) (ht : tr.Tame) (hw : v.WF) (hp : p < v.size_) :
    ErasureAt tr v p := by
  obtain ⟨r, hr, hok, herr, hne⟩ := Vector.Erase_spec tr v p hw hp
  cases r with
  | error e => exact absurd rfl (hne ht.2.2.2.1 e)
  | ok pr =>
    obtain ⟨v', p0⟩ := pr
    obtain ⟨hp0, hwf, hsz, hcap, hlo, hhi⟩ := hok v' p0 rfl
    rw [hp0] at hr
    refine ⟨v', hr, hwf, hsz, ?_⟩
    exact @Vector.toList_erase_form α _ v v' p hp hsz hlo hhi

theorem erasure_correctness_claim_witness :
    exTame.Tame ∧ Vector.WF exVec123 ∧ 0 < exVec123.size_ ∧
    ErasureAt exTame exVec123 0 :=
  ⟨exTame_tame, by decide, by decide,
    erasure_correctness_claim exTame exVec123 0 exTame_tame (by decide)
      (by decide)⟩

/-! ### Claim C7 -/

/-- The conclusions of claim C7 about copy assignment between distinct
vectors: it completes without undefined behaviour; on success the target is
element-wise equal to the source with the source's length, and its capacity
is the source's live count when that exceeded the old capacity (the
temporary built by `Vector rhs_copy(rhs)` was swapped in) and the old
capacity otherwise (the existing storage was reused); in the
temporary-and-swap branch a throw leaves the target exactly untouched; and
when the element type's copy operations do not throw no exception occurs. -/
def CopyAssignAt {α : Type} [Inhabited α] (tr : Traits α)
    (lhs rhs : Vector α) : Prop :=
  ∃ r, Vector.CopyAssign tr false lhs rhs = some r ∧
    (∀ out, r = Except.ok out → out.WF ∧ out.size_ = rhs.size_ ∧
      out.toList = rhs.toList ∧
      out.Capacity =
        (if rhs.size_ > lhs.Capacity then rhs.size_ else lhs.Capacity)) ∧
    (rhs.size_ > lhs.Capacity → ∀ out, r = Except.error out → out = lhs) ∧
    ((∀ a, tr.copyOk a = true) → (∀ a, tr.copyAsgOk a = true) →
      ∀ e, r ≠ Except.error e)

/-- Claim C7 (confirmed): for every pair of distinct well-formed vectors,
copy assignment makes the target element-wise equal to the source with the
source's length; when the source's live count exceeds the target's capacity
it builds a full temporary copy and swaps it in — so the capacity becomes
the source's live count, and on failure the target is untouched — and
otherwise it reuses the existing storage (capacity unchanged), copy-assigning
the overlapping prefix and then destroying the surplus tail or
copy-constructing the source's extra elements. -/
theorem copy_assignment_claim {α : Type} [Inhabited α] (tr : Traits α)
    (lhs rhs : Vector α) (hwl : lhs.WF) (hwr : rhs.WF) :
    CopyAssignAt tr lhs rhs := by
  obtain ⟨r, hr, hok, herr, hne⟩ := Vector.CopyAssign_spec tr lhs rhs hwl hwr
  refine ⟨r, hr, ?_, ?_, hne⟩
  · intro out ho
    obtain ⟨hsz, hwf, hpt, hcap⟩ := hok out ho
    refine ⟨hwf, hsz, ?_, hcap⟩
    exact Vector.toList_eq_of hsz (fun i hi => hpt i hi)
  · intro hbig out ho
    exact (herr out ho).2.2.2 hbig

theorem copy_assignment_claim_witness :
    Vector.WF exVec12 ∧ Vector.WF exVec123 ∧
    CopyAssignAt exTame exVec12 exVec123 :=
  ⟨by decide, by decide,
    copy_assignment_claim exTame exVec12 exVec123 (by decide) (by decide)⟩

/-! ### Claim C8 -/

/-- The conclusions of claim C8: the vector produced by move construction
has the source's former length, capacity, element values and — witnessing
that no element is copied — the very same buffer; the moved-from source is
empty (length 0, capacity 0) and well-formed, so it is safe to destroy or
reuse.  The operation is total (it returns a plain pair, not an `Option`):
it cannot throw and has no failure outcome. -/
def MoveCtorAt {α : Type} [Inhabited α] (v : Vector α) : Prop :=
  v.MoveCtor.1.size_ = v.size_ ∧
  v.MoveCtor.1.Capacity = v.Capacity ∧
  v.MoveCtor.1.toList = v.toList ∧
  v.MoveCtor.1.data_ = v.data_ ∧
  v.MoveCtor.2.size_ = 0 ∧
  v.MoveCtor.2.Capacity = 0 ∧
  v.MoveCtor.2.WF

/-- Claim C8 (confirmed): for every vector `A`, move-constructing `B` from
`A` gives `B` the former length, capacity and element values of `A` by
taking over its buffer (no element is copied, and the operation cannot
throw), and leaves `A` in a valid empty state — length 0, capacity 0,
well-formed — safe to destroy or reuse. -/
theorem move_construction_claim {α : Type} [Inhabited α] (v : Vector α) :
    MoveCtorAt v :=
  ⟨rfl, rfl, rfl, rfl, rfl, rfl, Vector.empty_WF⟩

/-! ### Claim C9 -/

/-- The conclusions of claim C9: with `w` the value stored at index `i` of
the vector at the moment of the call, inserting "the element at index `i`"
(an argument that is read back out of the container's own buffer, modeling a
reference into the shifting range) at position `p ≤ i` without reallocation
succeeds and yields the originally referenced value `w` at position `p`,
with the usual insertion shape and one more element. -/
def AliasedInsertAt {α : Type} [Inhabited α] (tr : Traits α) (v : Vector α)
    (p i : Nat) : Prop :=
  ∃ v' w, readAt v.data_ i = some w ∧ v.toList[i]? = some w ∧
    v.Emplace tr p (mkSelfArg tr i) = some (Except.ok (v', p)) ∧
    v'.WF ∧ v'.size_ = v.size_ + 1 ∧
    v'.toList = v.toList.take p ++ w :: v.toList.drop p ∧
    v'.toList[p]? = some w ∧ v'.Capacity = v.Capacity

/-- Claim C9 (confirmed): inserting at a non-end position without
reallocation remains correct when the inserted value is itself a reference
into the container's shifting range: because the new value is constructed
into a temporary before any element is moved (in the embedding, the argument
maker `mkSelfArg` reads the pre-mutation buffer), inserting `v[i]` at
position `p ≤ i` yields the old `v[i]` at position `p`. -/
theorem aliased_insert_claim {α : Type} [Inhabited α] (tr : Traits α)
    (v : Vector α) (p i : Nat) (ht : tr.Tame) (hw : v.WF) (hpi : p ≤ i)
    (hi : i < v.size_) (hnr : v.size_ < v.Capacity) :
    AliasedInsertAt tr v p i := by
  obtain ⟨w, hww⟩ := hw.live hi
  have hri : readAt v.data_ i = some w := readAt_eq_some_iff.mpr hww
  have hmk : mkSelfArg tr i v.data_ = some w := by
    unfold mkSelfArg
    rw [hri]
    show (if tr.copyOk w = true then some w else none) = some w
    rw [if_pos (ht.1 w)]
  obtain ⟨r, hr, hok, herr, hne⟩ :=
    Vector.Emplace_spec tr v p (mkSelfArg tr i) hw (by omega)
  cases r with
  | error e => exact absurd rfl (hne (by rw [hmk]; rfl) ht e)
  | ok pr =>
    obtain ⟨v', p0⟩ := pr
    obtain ⟨hp0, hwf, hsz, hlo, hmid, hhi, hcap⟩ := hok v' p0 rfl
    rw [hp0] at hr
    have h2 := hmid w hmk
    refine ⟨v', w, hri, ?_, hr, hwf, hsz, ?_, ?_, ?_⟩
    · rw [Vector.toList_getElem? v hi, hri]
      rfl
    · exact @Vector.toList_insert_form α _ v v' p w (by omega) hsz hlo h2 hhi
    · rw [Vector.toList_getElem? v' (by omega), h2]
      rfl
    · rw [hcap, if_neg (by omega)]

theorem aliased_insert_claim_witness :
    exTame.Tame ∧ Vector.WF exVec12c3 ∧ 0 ≤ 1 ∧ 1 < exVec12c3.size_ ∧
    exVec12c3.size_ < exVec12c3.Capacity ∧
    AliasedInsertAt exTame exVec12c3 0 1 :=
  ⟨exTame_tame, by decide, by decide, by decide, by decide,
    aliased_insert_claim exTame exVec12c3 0 1 exTame_tame (by decide)
      (by decide) (by decide) (by decide)⟩

/-! ### Claim C10 -/

/-- The conclusions of claim C10: self-assignment (the `this != &rhs` guard
taken with equal addresses, `sameObj = true`) succeeds, cannot throw, and
returns the vector exactly as it was — same length, same capacity, same
buffer contents. -/
def SelfAssignAt {α : Type} (tr : Traits α) (v : Vector α) : Prop :=
  ∃ out, Vector.CopyAssign tr true v v = some (Except.ok out) ∧
    out.size_ = v.size_ ∧ out.Capacity = v.Capacity ∧ out.data_ = v.data_

/-- Claim C10 (confirmed): for every vector `v`, self-copy-assignment
(`v = v`) leaves `v` unchanged — the `this != &rhs` guard makes it a no-op,
so the length, the capacity and every element are identical to their values
before the assignment, and no element operation runs at all. -/
theorem self_assignment_claim {α : Type} (tr : Traits α) (v : Vector α) :
    SelfAssignAt tr v :=
  ⟨v, rfl, rfl, rfl, rfl⟩

end AdvVector
